import Mathlib

/-
Verification of the brows3 S3-browser backend (Rust, `src-tauri`):
the per-bucket listing cache and its derived folder tree
(`src/s3/client.rs`), the cached-pagination path of `list_objects`
(`src/commands/objects.rs`), the region-discovery-and-retry protocol,
and the transfer queue (`src/transfer/manager.rs`, `src/transfer/mod.rs`).

Modelling conventions:
* Rust `String` values are modelled as `List Char` (`Key` below), so that
  the slash-splitting logic of the folder-cache builder can be reasoned
  about by list induction.  Rust string comparison (`Ord` on `String`) is
  byte-lexicographic; on the keys appearing here this coincides with the
  lexicographic `LinearOrder` on `List Char`.
* Rust `HashMap`s are modelled as association lists with unique keys,
  with `alookup` / `aupsert` / `aremove` mirroring `get` / the
  `entry(..).or_insert(..)` + mutation pattern / `remove`.  Lookup
  results only depend on the first binding of a key, and `aupsert`
  preserves key uniqueness, so this is a faithful map model.
* `Vec::sort_by(|a, b| a.key.cmp(&b.key))` is modelled by
  `List.insertionSort`: the claims proved below only depend on the
  result being a sorted permutation of the input, which every
  comparison sort satisfies.
* Machine integers: `usize` values are `Nat` with explicit `% 2 ^ 64`
  where release-mode wrapping arithmetic matters, and `i64` object
  sizes are `Int`.  Rust slice indexing `v[a..b]`, which panics when
  `a > b` or `b > v.len()`, is modelled by an `Option`-valued `slice`
  (`none` = panic).
* Network and filesystem effects are out of scope of the cache and
  store logic itself; where a claim is about the control flow around
  network calls (region retry) the network is an explicit oracle
  argument.
-/

namespace Brows3

/-- Keys, bucket names, profile ids, error messages: Rust strings,
modelled as lists of characters. -/
abbrev Key := List Char

/-! ### Association-list maps (model of `HashMap`) -/

/-- Lookup in an association list; model of `HashMap::get`. -/
def alookup {κ α : Type} [DecidableEq κ] : List (κ × α) → κ → Option α
  | [], _ => none
  | (k', v) :: rest, k => if k' = k then some v else alookup rest k

/-- Insert-or-update the binding of `k`, computing the new value from the
old one; model of `HashMap::insert` and of the
`entry(k).or_insert(..)` + in-place mutation pattern. -/
def aupsert {κ α : Type} [DecidableEq κ] : List (κ × α) → κ → (Option α → α) → List (κ × α)
  | [], k, f => [(k, f none)]
  | (k', v) :: rest, k, f =>
      if k' = k then (k', f (some v)) :: rest else (k', v) :: aupsert rest k f

/-- Remove every binding of `k`; model of `HashMap::remove` (effect on
the map only — the returned old value is not modelled). -/
def aremove {κ α : Type} [DecidableEq κ] (m : List (κ × α)) (k : κ) : List (κ × α) :=
  m.filter (fun e => decide (e.1 ≠ k))

/-! ### Data model (`src/s3/client.rs` lines 9-29) -/

/-- Model of `S3Object`. -/
structure S3Object where
  key : Key
  last_modified : Option Key
  size : Int
  storage_class : Option Key
deriving DecidableEq

/-- Model of `FolderContent`. -/
structure FolderContent where
  objects : List S3Object
  common_prefixes : List Key
deriving DecidableEq

/-- The empty `FolderContent`; model of `FolderContent::default()` and of
the literal `FolderContent { objects: Vec::new(), common_prefixes: Vec::new() }`. -/
def fcEmpty : FolderContent := ⟨[], []⟩

instance : Inhabited FolderContent := ⟨fcEmpty⟩

/-- An S3 client is identified by the (profile id, region) pair it was
built for; client construction itself (credentials, endpoints) is out of
scope, so the built client is modelled by its identifying pair. -/
abbrev Client := Key × Key

/-- Model of `S3ClientManager`: cached clients, the flat per-bucket
object cache, the derived folder cache, and the bucket-region cache. -/
structure S3ClientManager where
  clients : List ((Key × Key) × Client)
  object_cache : List ((Key × Key) × List S3Object)
  folder_cache : List ((Key × Key × Key) × FolderContent)
  bucket_regions : List (Key × Key)
deriving DecidableEq

/-- Model of `S3ClientManager::new`. -/
def S3ClientManager.new : S3ClientManager := ⟨[], [], [], []⟩

/-- Model of `Profile` restricted to the fields the cache logic reads:
the id and the optional default region.  Credential material is never
inspected by the code under verification. -/
structure Profile where
  id : Key
  region : Option Key
deriving DecidableEq

/-- The hard-coded default region `"us-east-1"`. -/
def usEast1 : Key := "us-east-1".toList

/-- Model of `build_client` (lines 60-128): the resulting client is
determined by the profile and the region it is configured for. -/
def build_client (p : Profile) (override_region : Option Key) : Client :=
  (p.id, (override_region.or p.region).getD usEast1)

/-- Model of `get_client_for_region` (lines 48-57): cache lookup on
`(profile.id, region)`, building and inserting on a miss.  Returns the
client together with the updated manager. -/
def get_client_for_region (m : S3ClientManager) (p : Profile) (region : Key) :
    Client × S3ClientManager :=
  match alookup m.clients (p.id, region) with
  | some c => (c, m)
  | none =>
      let c := build_client p (some region)
      (c, { m with clients := aupsert m.clients (p.id, region) (fun _ => c) })

/-- Model of `get_client` (lines 42-45): resolve the profile's default
region (falling back to `"us-east-1"`) and delegate. -/
def get_client (m : S3ClientManager) (p : Profile) : Client × S3ClientManager :=
  get_client_for_region m p (p.region.getD usEast1)

/-- Model of `get_bucket_region` (lines 139-141). -/
def get_bucket_region (m : S3ClientManager) (bucket : Key) : Option Key :=
  alookup m.bucket_regions bucket

/-- Model of `set_bucket_region` (lines 144-146). -/
def set_bucket_region (m : S3ClientManager) (bucket region : Key) : S3ClientManager :=
  { m with bucket_regions := aupsert m.bucket_regions bucket (fun _ => region) }

/-- Model of `get_cached_objects` (lines 149-151). -/
def get_cached_objects (m : S3ClientManager) (pid bucket : Key) : Option (List S3Object) :=
  alookup m.object_cache (pid, bucket)

/-- Model of `get_folder_content` (lines 154-156). -/
def get_folder_content (m : S3ClientManager) (pid bucket pre : Key) : Option FolderContent :=
  alookup m.folder_cache (pid, bucket, pre)

/-- Model of `has_cache` (lines 235-237). -/
def has_cache (m : S3ClientManager) (pid bucket : Key) : Bool :=
  (alookup m.object_cache (pid, bucket)).isSome

/-- Model of `get_object_from_cache` (lines 240-245): linear scan of the
flat object cache for an exact key match (`iter().find(..)` returns the
first match). -/
def get_object_from_cache (m : S3ClientManager) (pid bucket key : Key) : Option S3Object :=
  (alookup m.object_cache (pid, bucket)).bind
    (fun objs => objs.find? (fun o => decide (o.key = key)))

/-! ### The folder-cache builder (`set_cached_objects`, lines 159-232)

String helpers first.  `key.rfind('/')`-based parent computation and the
split-on-`'/'` prefix chain are modelled by direct character recursion;
the doc comments record the correspondence with the source. -/

/-- Does the key end with `'/'` (a folder marker)?  Model of
`key.ends_with('/')`. -/
def endsSlash (k : Key) : Bool := decide (k.getLast? = some '/')

/-- The longest prefix of `k` that ends with `'/'` (empty when `k`
contains no slash): this is `&key[..last_slash + 1]` for
`last_slash = key.rfind('/')`, and `""` when `rfind` returns `None`. -/
def keepToLastSlash (k : Key) : Key :=
  ((k.reverse).dropWhile (fun c => decide (c ≠ '/'))).reverse

/-- Model of the `parent_prefix` computation of `set_cached_objects`
(lines 175-189): for a key ending in `'/'` the final slash is first
stripped (`&key[..last_slash]`) and the parent is the part up to and
including the previous slash (or `""` when there is none); otherwise the
parent is the part up to and including the last slash (or `""`). -/
def parentDir (k : Key) : Key :=
  if endsSlash k then keepToLastSlash k.dropLast else keepToLastSlash k

/-- Character-level scan producing, for each `'/'` in the remaining
input, the pair (folder seen so far, folder extended to this `'/'`).
`parent` is the prefix up to and including the previous slash, `seg` the
characters consumed since then. -/
def chainFrom (parent seg : Key) : Key → List (Key × Key)
  | [] => []
  | c :: rest =>
      if c = '/' then
        (parent, parent ++ seg ++ ['/']) :: chainFrom (parent ++ seg ++ ['/']) [] rest
      else
        chainFrom parent (seg ++ [c]) rest

/-- All (parent folder, child folder) pairs along the slash-separated
ancestor chain of `k`, one pair per `'/'` occurrence, in order. -/
def slashChain (k : Key) : List (Key × Key) := chainFrom [] [] k

/-- Model of the prefix-tree loop of `set_cached_objects` (lines
198-221): the source splits `key` on `'/'` and re-joins the first
`depth` parts, where `depth` is `parts.len() - 1` for ordinary keys and
`parts.len() - 2` for keys ending in `'/'`; iteration `i` contributes
the pair (join of the first `i` parts + trailing slashes, join of the
first `i + 1` parts + trailing slash).  Joining the first `i + 1` parts
of the split back with `'/'` is exactly the prefix of `key` up to and
including its `i + 1`-st slash, so the produced pairs are the first
`depth` elements of `slashChain key`: all of them for an ordinary key
(which has `parts.len() - 1` slashes), and all but the last for a
folder marker (which has `parts.len() - 1` slashes as well, the last
one being its final character). -/
def chainPairs (k : Key) : List (Key × Key) :=
  if endsSlash k then (slashChain k).dropLast else slashChain k

/-- One guarded push of `path` into `parent`'s `common_prefixes` (lines
212-219).  The source keeps a per-parent `HashSet` of already-pushed
paths; that set always holds exactly the `common_prefixes` already
recorded for `parent` (the two are only ever extended together), so the
`seen_prefixes.contains` guard is modelled by membership in the current
`common_prefixes` of `parent`. -/
def pushChild (m : List (Key × FolderContent)) (parent path : Key) :
    List (Key × FolderContent) :=
  if path ∈ ((alookup m parent).getD fcEmpty).common_prefixes then m
  else
    aupsert m parent (fun o =>
      ⟨(o.getD fcEmpty).objects, (o.getD fcEmpty).common_prefixes ++ [path]⟩)

/-- Run `pushChild` over a list of (parent, child) pairs in order. -/
def addChain (m : List (Key × FolderContent)) : List (Key × Key) → List (Key × FolderContent)
  | [] => m
  | (parent, path) :: rest => addChain (pushChild m parent path) rest

/-- Process one object of the input list (the body of the
`for obj in &objects` loop, lines 171-222): push the object into its
parent folder's `objects` unless its key ends in `'/'`, then record its
ancestor chain. -/
def addObj (m : List (Key × FolderContent)) (o : S3Object) : List (Key × FolderContent) :=
  addChain
    (if endsSlash o.key then m
     else
       aupsert m (parentDir o.key) (fun ofc =>
         ⟨(ofc.getD fcEmpty).objects ++ [o], (ofc.getD fcEmpty).common_prefixes⟩))
    (chainPairs o.key)

/-- The in-pass `folders` map of `set_cached_objects`: root pre-inserted
(line 166), then one pass over the objects. -/
def buildFolders (objs : List S3Object) : List (Key × FolderContent) :=
  objs.foldl addObj [([], fcEmpty)]

/-- Lexicographic key order used by `content.objects.sort_by(|a, b|
a.key.cmp(&b.key))`. -/
def objLe (a b : S3Object) : Prop := a.key ≤ b.key

instance : DecidableRel objLe := fun a b => inferInstanceAs (Decidable (a.key ≤ b.key))

instance : IsTotal S3Object objLe := ⟨fun a b => le_total a.key b.key⟩

instance : IsTrans S3Object objLe := ⟨fun _ _ _ h1 h2 => le_trans h1 h2⟩

/-- Final per-folder sorting step (lines 226-227). -/
def sortFC (fc : FolderContent) : FolderContent :=
  ⟨fc.objects.insertionSort objLe,
   fc.common_prefixes.insertionSort (· ≤ ·)⟩

/-- Model of `set_cached_objects` (lines 159-232): build the folder map
in one pass, then store each entry (sorted) in the manager's
`folder_cache` under `(profile_id, bucket_name, entry_key)`, and replace
the flat `object_cache` entry of the bucket. -/
def set_cached_objects (m : S3ClientManager) (pid bucket : Key) (objs : List S3Object) :
    S3ClientManager :=
  { m with
    folder_cache :=
      (buildFolders objs).foldl
        (fun fcache e => aupsert fcache (pid, bucket, e.1) (fun _ => sortFC e.2))
        m.folder_cache,
    object_cache := aupsert m.object_cache (pid, bucket) (fun _ => objs) }

/-- Model of `remove_bucket_cache` (lines 248-263): drop the bucket's
flat object cache entry, retain only folder-cache entries of other
(profile, bucket) pairs, and drop the bucket's region entry.  The
client cache is not touched. -/
def remove_bucket_cache (m : S3ClientManager) (pid bucket : Key) : S3ClientManager :=
  { m with
    object_cache := aremove m.object_cache (pid, bucket),
    folder_cache :=
      m.folder_cache.filter (fun e => decide (e.1.1 ≠ pid) || decide (e.1.2.1 ≠ bucket)),
    bucket_regions := aremove m.bucket_regions bucket }

/-- Model of `clear_cache` (lines 131-136). -/
def clear_cache (m : S3ClientManager) : S3ClientManager :=
  { m with clients := [], object_cache := [], folder_cache := [], bucket_regions := [] }

/-! ### Spec-side vocabulary for the folder-tree claims -/

/-- `c` is an ancestor folder of the key `k`: a nonempty proper prefix
of `k` ending in `'/'`.  This is the spec's notion of "folder prefix
that is an ancestor of some key". -/
def IsAncestor (c k : Key) : Prop :=
  c ≠ [] ∧ c ≠ k ∧ c <+: k ∧ c.getLast? = some '/'

instance (c k : Key) : Decidable (IsAncestor c k) := by
  unfold IsAncestor; infer_instance

/-! ### Lemmas: association lists -/

theorem alookup_aupsert {κ α : Type} [DecidableEq κ] (m : List (κ × α)) (k : κ) (f : Option α → α)
    (k' : κ) :
    alookup (aupsert m k f) k' = if k = k' then some (f (alookup m k)) else alookup m k' := by
  induction m with
  | nil => simp [aupsert, alookup]
  | cons e m ih =>
      obtain ⟨k0, v⟩ := e
      by_cases h0 : k0 = k
      · subst h0
        by_cases h1 : k0 = k'
        · subst h1
          simp [aupsert, alookup]
        · simp [aupsert, alookup, h1]
      · by_cases h1 : k0 = k'
        · subst h1
          have hk : ¬k = k0 := fun h => h0 h.symm
          simp [aupsert, alookup, h0, hk]
        · simp [aupsert, alookup, h0, h1, ih]

theorem alookup_eq_none_iff {κ α : Type} [DecidableEq κ] (m : List (κ × α)) (k : κ) :
    alookup m k = none ↔ ∀ e ∈ m, e.1 ≠ k := by
  induction m with
  | nil => simp [alookup]
  | cons e m ih =>
      obtain ⟨k0, v⟩ := e
      by_cases h0 : k0 = k <;> simp [alookup, h0, ih]

theorem alookup_filter_of_holds {κ α : Type} [DecidableEq κ] (m : List (κ × α))
    (p : κ × α → Bool) (k : κ) (h : ∀ v, p (k, v) = true) :
    alookup (m.filter p) k = alookup m k := by
  induction m with
  | nil => simp
  | cons e m ih =>
      obtain ⟨k0, v⟩ := e
      by_cases h0 : k0 = k
      · subst h0
        simp [List.filter, h v, alookup, ih]
      · by_cases hp : p (k0, v) = true <;> simp [List.filter, hp, alookup, h0, ih]

theorem alookup_filter_of_fails {κ α : Type} [DecidableEq κ] (m : List (κ × α))
    (p : κ × α → Bool) (k : κ) (h : ∀ v, p (k, v) = false) :
    alookup (m.filter p) k = none := by
  induction m with
  | nil => simp [alookup]
  | cons e m ih =>
      obtain ⟨k0, v⟩ := e
      by_cases h0 : k0 = k
      · subst h0
        simp [List.filter, h v, ih]
      · by_cases hp : p (k0, v) = true <;> simp [List.filter, hp, alookup, h0, ih]

/-! ### Lemmas: slash scanning and the ancestor chain -/

theorem endsSlash_iff (k : Key) : endsSlash k = true ↔ ∃ w, k = w ++ ['/'] := by
  simp [endsSlash, List.getLast?_eq_some_iff]

theorem endsSlash_concat (w : Key) : endsSlash (w ++ ['/']) = true := by
  simp [endsSlash]

theorem folder_isPre (u k : Key) : u ++ ['/'] <+: k ↔ ∃ v, k = u ++ '/' :: v := by
  constructor
  · rintro ⟨t, ht⟩
    exact ⟨t, by simpa using ht.symm⟩
  · rintro ⟨v, rfl⟩
    exact ⟨v, by simp⟩

theorem keepToLastSlash_append (v : Key) (hv : ∀ x ∈ v, x ≠ '/') (u : Key) :
    keepToLastSlash (u ++ ['/'] ++ v) = u ++ ['/'] := by
  unfold keepToLastSlash
  have h1 : (u ++ ['/'] ++ v).reverse = v.reverse ++ '/' :: u.reverse := by simp
  rw [h1]
  have h2 : List.dropWhile (fun c => decide (c ≠ '/')) v.reverse = [] := by
    rw [List.dropWhile_eq_nil_iff]
    intro x hx
    simpa using hv x (List.mem_reverse.mp hx)
  rw [List.dropWhile_append, h2]
  simp [List.dropWhile]

theorem keepToLastSlash_nil (k : Key) (h : ∀ x ∈ k, x ≠ '/') : keepToLastSlash k = [] := by
  unfold keepToLastSlash
  have hd : List.dropWhile (fun c => decide (c ≠ '/')) k.reverse = [] := by
    rw [List.dropWhile_eq_nil_iff]
    intro x hx
    simpa using h x (List.mem_reverse.mp hx)
  rw [hd, List.reverse_nil]

theorem parentDir_append (u seg : Key) (hu : u = [] ∨ endsSlash u = true)
    (hseg : ∀ x ∈ seg, x ≠ '/') : parentDir (u ++ seg ++ ['/']) = u := by
  unfold parentDir
  rw [if_pos (endsSlash_concat (u ++ seg))]
  have hdl : (u ++ seg ++ ['/']).dropLast = u ++ seg := List.dropLast_concat ..
  rw [hdl]
  rcases hu with rfl | hu
  · simpa using keepToLastSlash_nil seg hseg
  · obtain ⟨w, rfl⟩ := (endsSlash_iff u).mp hu
    simpa using keepToLastSlash_append seg hseg w

theorem chainFrom_mem (rest : Key) : ∀ (parent seg q c : Key),
    (parent = [] ∨ endsSlash parent = true) → (∀ x ∈ seg, x ≠ '/') →
    ((q, c) ∈ chainFrom parent seg rest ↔
      ∃ u v, rest = u ++ '/' :: v ∧ c = parent ++ seg ++ u ++ ['/'] ∧ q = parentDir c) := by
  induction rest with
  | nil =>
      intro parent seg q c _ _
      simp only [chainFrom, List.not_mem_nil, false_iff]
      rintro ⟨u, v, h, -⟩
      exact absurd h (by simp)
  | cons a rest ih =>
      intro parent seg q c hp hs
      by_cases ha : a = '/'
      · subst ha
        rw [chainFrom, if_pos rfl]
        have hp' : (parent ++ seg ++ ['/'] : Key) = [] ∨ endsSlash (parent ++ seg ++ ['/']) = true :=
          Or.inr (endsSlash_concat (parent ++ seg))
        constructor
        · intro h
          rcases List.mem_cons.mp h with heq | htail
          · rw [Prod.mk.injEq] at heq
            obtain ⟨hq, hc⟩ := heq
            refine ⟨[], rest, by simp, by rw [hc]; simp, ?_⟩
            rw [hc, parentDir_append parent seg hp hs]
            exact hq
          · obtain ⟨u', v, hrest, hc, hq⟩ :=
              (ih (parent ++ seg ++ ['/']) [] q c hp' (by simp)).mp htail
            refine ⟨'/' :: u', v, by rw [hrest]; rfl, ?_, hq⟩
            rw [hc]; simp
        · rintro ⟨u, v, hrest, hc, hq⟩
          cases u with
          | nil =>
              apply List.mem_cons.mpr
              left
              have hcc : c = parent ++ seg ++ ['/'] := by rw [hc]; simp
              have hqq : q = parent := by
                rw [hq, hcc, parentDir_append parent seg hp hs]
              rw [hqq, hcc]
          | cons u0 u' =>
              simp only [List.cons_append, List.cons.injEq] at hrest
              obtain ⟨rfl, hrest⟩ := hrest
              apply List.mem_cons.mpr
              right
              refine (ih (parent ++ seg ++ ['/']) [] q c hp' (by simp)).mpr
                ⟨u', v, hrest, ?_, hq⟩
              rw [hc]; simp
      · rw [chainFrom, if_neg ha]
        have hs' : ∀ x ∈ seg ++ [a], x ≠ '/' := by
          intro x hx
          rcases List.mem_append.mp hx with h1 | h2
          · exact hs x h1
          · simpa using (List.mem_singleton.mp h2) ▸ ha
        rw [ih parent (seg ++ [a]) q c hp hs']
        constructor
        · rintro ⟨u', v, hrest, hc, hq⟩
          refine ⟨a :: u', v, by rw [hrest]; rfl, ?_, hq⟩
          rw [hc]; simp
        · rintro ⟨u, v, hrest, hc, hq⟩
          cases u with
          | nil =>
              simp only [List.nil_append, List.cons.injEq] at hrest
              exact absurd hrest.1 ha
          | cons u0 u' =>
              simp only [List.cons_append, List.cons.injEq] at hrest
              obtain ⟨rfl, hrest⟩ := hrest
              refine ⟨u', v, hrest, ?_, hq⟩
              rw [hc]; simp

theorem slashChain_mem (k q c : Key) :
    (q, c) ∈ slashChain k ↔ ∃ u v, k = u ++ '/' :: v ∧ c = u ++ ['/'] ∧ q = parentDir c := by
  rw [slashChain, chainFrom_mem k [] [] q c (Or.inl rfl) (by simp)]
  simp only [List.nil_append]

/-- State of the `chainFrom` scan after consuming a list of characters:
the last slash-terminated position and the pending segment. -/
def scanState (parent seg : Key) : Key → Key × Key
  | [] => (parent, seg)
  | c :: rest =>
      if c = '/' then scanState (parent ++ seg ++ ['/']) [] rest
      else scanState parent (seg ++ [c]) rest

theorem chainFrom_concat (xs : Key) : ∀ parent seg : Key,
    chainFrom parent seg (xs ++ ['/']) =
      chainFrom parent seg xs ++
        [((scanState parent seg xs).1,
          (scanState parent seg xs).1 ++ (scanState parent seg xs).2 ++ ['/'])] := by
  induction xs with
  | nil => intro parent seg; simp [chainFrom, scanState]
  | cons a xs ih =>
      intro parent seg
      by_cases ha : a = '/' <;> simp [chainFrom, scanState, ha, ih]

theorem chainPairs_marker (w : Key) : chainPairs (w ++ ['/']) = slashChain w := by
  unfold chainPairs
  rw [if_pos (endsSlash_concat w)]
  show (chainFrom [] [] (w ++ ['/'])).dropLast = slashChain w
  rw [chainFrom_concat w [] []]
  exact List.dropLast_concat ..

theorem chainPairs_mem (k q c : Key) :
    (q, c) ∈ chainPairs k ↔ IsAncestor c k ∧ q = parentDir c := by
  by_cases hk : endsSlash k = true
  · obtain ⟨w, rfl⟩ := (endsSlash_iff k).mp hk
    rw [chainPairs_marker, slashChain_mem]
    constructor
    · rintro ⟨u, v, rfl, rfl, hq⟩
      refine ⟨⟨by simp, ?_, ?_, by simp⟩, hq⟩
      · intro hck
        have := congrArg List.length hck
        simp at this
      · refine (folder_isPre u _).mpr ⟨v ++ ['/'], by simp⟩
    · rintro ⟨⟨hne, hck, hpre, hlast⟩, hq⟩
      obtain ⟨u, rfl⟩ := List.getLast?_eq_some_iff.mp hlast
      obtain ⟨v', hv'⟩ := (folder_isPre u _).mp hpre
      rcases List.eq_nil_or_concat v' with rfl | ⟨v'', x, rfl⟩
      · exfalso
        apply hck
        have : w ++ ['/'] = u ++ ['/'] := by simpa using hv'
        have hw : w = u := by
          have := congrArg List.dropLast this
          simpa using this
        rw [hw]
      · have hv2 : (u ++ ['/'] ++ v'') ++ [x] = w ++ ['/'] := by
          rw [hv']
          simp [List.concat_eq_append]
        obtain ⟨hw, hx⟩ := List.append_inj' hv2 (by simp)
        refine ⟨u, v'', ?_, rfl, hq⟩
        rw [← hw]; simp
  · rw [chainPairs, if_neg hk, slashChain_mem]
    constructor
    · rintro ⟨u, v, rfl, rfl, hq⟩
      refine ⟨⟨by simp, ?_, (folder_isPre u _).mpr ⟨v, rfl⟩, by simp⟩, hq⟩
      intro hck
      apply hk
      rw [← hck]
      exact endsSlash_concat u
    · rintro ⟨⟨hne, hck, hpre, hlast⟩, hq⟩
      obtain ⟨u, rfl⟩ := List.getLast?_eq_some_iff.mp hlast
      obtain ⟨v, rfl⟩ := (folder_isPre u _).mp hpre
      exact ⟨u, v, rfl, rfl, hq⟩

theorem mem_split_first {x : Char} {l : Key} (h : x ∈ l) :
    ∃ s t, l = s ++ x :: t ∧ ∀ y ∈ s, y ≠ x := by
  induction l with
  | nil => cases h
  | cons a l ih =>
      by_cases hax : a = x
      · exact ⟨[], l, by rw [hax]; rfl, by simp⟩
      · rcases List.mem_cons.mp h with h1 | h2
        · exact absurd h1.symm hax
        · obtain ⟨s, t, rfl, hs⟩ := ih h2
          refine ⟨a :: s, t, rfl, ?_⟩
          intro y hy
          rcases List.mem_cons.mp hy with rfl | hy2
          · exact hax
          · exact hs y hy2

/-- Bridge between the spec's "ancestor of some key" and what the
builder's chain loop actually records: an ancestor `c` of `k` that is
not the immediate parent of a folder-marker `k` is either the immediate
parent of an ordinary key (recorded by the object push) or the parent of
a deeper ancestor (recorded by the chain loop). -/
theorem ancestor_bridge (c k : Key) (h : IsAncestor c k)
    (hm : endsSlash k = true → c ≠ parentDir k) :
    (endsSlash k = false ∧ c = parentDir k) ∨ ∃ c', IsAncestor c' k ∧ parentDir c' = c := by
  obtain ⟨hne, hck, hpre, hlast⟩ := h
  obtain ⟨u, rfl⟩ := List.getLast?_eq_some_iff.mp hlast
  obtain ⟨v, rfl⟩ := (folder_isPre u _).mp hpre
  have hvne : v ≠ [] := by
    intro h0
    subst h0
    exact hck (by simp)
  by_cases hv : '/' ∈ v
  · right
    obtain ⟨s, t, rfl, hs⟩ := mem_split_first hv
    refine ⟨u ++ ['/'] ++ s ++ ['/'], ⟨by simp, ?_, ?_, List.getLast?_concat _⟩, ?_⟩
    · intro he
      have hlen := congrArg List.length he
      simp [List.length_append] at hlen
      subst hlen
      have hks : endsSlash (u ++ '/' :: (s ++ ['/'])) = true := by
        have : u ++ '/' :: (s ++ ['/']) = (u ++ '/' :: s) ++ ['/'] := by simp
        rw [this]
        exact endsSlash_concat _
      apply hm hks
      have : u ++ '/' :: (s ++ ['/']) = (u ++ ['/']) ++ s ++ ['/'] := by simp
      rw [this, parentDir_append (u ++ ['/']) s (Or.inr (endsSlash_concat u)) hs]
    · refine (folder_isPre (u ++ ['/'] ++ s) _).mpr ⟨t, by simp⟩
    · exact parentDir_append (u ++ ['/']) s (Or.inr (endsSlash_concat u)) hs
  · left
    have hkm : endsSlash (u ++ '/' :: v) = false := by
      rcases List.eq_nil_or_concat v with rfl | ⟨v', x, rfl⟩
      · exact absurd rfl hvne
      · by_contra hcon
        have hslash := (endsSlash_iff _).mp (by simpa using hcon)
        obtain ⟨w, hw⟩ := hslash
        have h2 : (u ++ ['/'] ++ v') ++ [x] = w ++ ['/'] := by
          rw [← hw]; simp
        obtain ⟨-, hx⟩ := List.append_inj' h2 (by simp)
        apply hv
        have : x = '/' := by simpa using hx
        rw [← this]
        simp
    refine ⟨hkm, ?_⟩
    rw [parentDir, if_neg (by simp [hkm])]
    have : u ++ '/' :: v = u ++ ['/'] ++ v := by simp
    rw [this, keepToLastSlash_append v (fun x hx he => hv (he ▸ hx)) u]

/-! ### Lemmas: the in-pass folder map -/

/-- Content of the in-pass folder map at a prefix, an absent entry
reading as empty (matching `entry(..).or_default()`). -/
def fcAt (m : List (Key × FolderContent)) (p : Key) : FolderContent :=
  (alookup m p).getD fcEmpty

theorem aupsert_isSome {κ α : Type} [DecidableEq κ] (m : List (κ × α)) (k : κ) (f : Option α → α)
    (q : κ) : (alookup (aupsert m k f) q).isSome ↔ (alookup m q).isSome ∨ q = k := by
  rw [alookup_aupsert]
  by_cases h : k = q
  · subst h
    simp
  · rw [if_neg h]
    constructor
    · exact Or.inl
    · rintro (h1 | rfl)
      · exact h1
      · exact absurd rfl h

theorem fcAt_pushChild_objects (m : List (Key × FolderContent)) (par path q : Key) :
    (fcAt (pushChild m par path) q).objects = (fcAt m q).objects := by
  unfold pushChild
  split_ifs with h
  · rfl
  · unfold fcAt
    rw [alookup_aupsert]
    by_cases h2 : par = q
    · subst h2
      rw [if_pos rfl]
      cases alookup m par <;> simp
    · rw [if_neg h2]

theorem fcAt_pushChild_mem (m : List (Key × FolderContent)) (par path q c : Key) :
    c ∈ (fcAt (pushChild m par path) q).common_prefixes ↔
      c ∈ (fcAt m q).common_prefixes ∨ (q = par ∧ c = path) := by
  unfold pushChild
  split_ifs with h
  · constructor
    · exact Or.inl
    · rintro (h1 | ⟨rfl, rfl⟩)
      · exact h1
      · exact h
  · unfold fcAt
    rw [alookup_aupsert]
    by_cases h2 : par = q
    · subst h2
      rw [if_pos rfl]
      cases alookup m par <;> simp [fcEmpty]
    · rw [if_neg h2]
      constructor
      · exact Or.inl
      · rintro (h1 | ⟨rfl, rfl⟩)
        · exact h1
        · exact absurd rfl h2

theorem fcAt_pushChild_nodup (m : List (Key × FolderContent)) (par path q : Key)
    (h : (fcAt m q).common_prefixes.Nodup) :
    (fcAt (pushChild m par path) q).common_prefixes.Nodup := by
  unfold pushChild
  split_ifs with hg
  · exact h
  · unfold fcAt
    rw [alookup_aupsert]
    by_cases h2 : par = q
    · subst h2
      rw [if_pos rfl]
      unfold fcAt at h hg
      cases halm : alookup m par <;> rw [halm] at h hg <;>
        simp_all [fcEmpty, List.nodup_append]
    · rw [if_neg h2]
      exact h

theorem pushChild_isSome (m : List (Key × FolderContent)) (par path q : Key) :
    (alookup (pushChild m par path) q).isSome ↔ (alookup m q).isSome ∨ q = par := by
  unfold pushChild
  split_ifs with hg
  · constructor
    · exact Or.inl
    · rintro (h1 | rfl)
      · exact h1
      · cases halm : alookup m q
        · rw [halm] at hg
          simp [fcEmpty] at hg
        · simp
  · exact aupsert_isSome m par _ q

theorem fcAt_addChain_objects (l : List (Key × Key)) : ∀ (m : List (Key × FolderContent)) (q : Key),
    (fcAt (addChain m l) q).objects = (fcAt m q).objects := by
  induction l with
  | nil => intro m q; rfl
  | cons e l ih =>
      intro m q
      obtain ⟨par, path⟩ := e
      rw [addChain, ih, fcAt_pushChild_objects]

theorem fcAt_addChain_mem (l : List (Key × Key)) : ∀ (m : List (Key × FolderContent)) (q c : Key),
    c ∈ (fcAt (addChain m l) q).common_prefixes ↔
      c ∈ (fcAt m q).common_prefixes ∨ (q, c) ∈ l := by
  induction l with
  | nil => intro m q c; simp [addChain]
  | cons e l ih =>
      intro m q c
      obtain ⟨par, path⟩ := e
      rw [addChain, ih, fcAt_pushChild_mem]
      simp only [List.mem_cons, Prod.mk.injEq]
      tauto

theorem fcAt_addChain_nodup (l : List (Key × Key)) : ∀ (m : List (Key × FolderContent)) (q : Key),
    (fcAt m q).common_prefixes.Nodup → (fcAt (addChain m l) q).common_prefixes.Nodup := by
  induction l with
  | nil => intro m q h; exact h
  | cons e l ih =>
      intro m q h
      obtain ⟨par, path⟩ := e
      rw [addChain]
      exact ih _ q (fcAt_pushChild_nodup m par path q h)

theorem addChain_isSome (l : List (Key × Key)) : ∀ (m : List (Key × FolderContent)) (q : Key),
    (alookup (addChain m l) q).isSome ↔ (alookup m q).isSome ∨ ∃ c, (q, c) ∈ l := by
  induction l with
  | nil => intro m q; simp [addChain]
  | cons e l ih =>
      intro m q
      obtain ⟨par, path⟩ := e
      rw [addChain, ih, pushChild_isSome]
      simp only [List.mem_cons, Prod.mk.injEq]
      constructor
      · rintro ((h1 | rfl) | ⟨c, hc⟩)
        · exact Or.inl h1
        · exact Or.inr ⟨path, Or.inl ⟨rfl, rfl⟩⟩
        · exact Or.inr ⟨c, Or.inr hc⟩
      · rintro (h1 | ⟨c, ⟨rfl, rfl⟩ | hc⟩)
        · exact Or.inl (Or.inl h1)
        · exact Or.inl (Or.inr rfl)
        · exact Or.inr ⟨c, hc⟩

theorem fcAt_addObj_objects (m : List (Key × FolderContent)) (o : S3Object) (q : Key) :
    (fcAt (addObj m o) q).objects =
      (fcAt m q).objects ++
        (if endsSlash o.key = false ∧ parentDir o.key = q then [o] else []) := by
  unfold addObj
  rw [fcAt_addChain_objects]
  by_cases hm : endsSlash o.key
  · rw [if_pos hm, if_neg (by simp [hm])]
    simp
  · have hm' : endsSlash o.key = false := by simpa using hm
    rw [if_neg hm]
    unfold fcAt
    rw [alookup_aupsert]
    by_cases h2 : parentDir o.key = q
    · rw [if_pos h2, if_pos ⟨hm', h2⟩]
      subst h2
      cases alookup m (parentDir o.key) <;> simp [fcEmpty]
    · rw [if_neg h2, if_neg (by simp [h2])]
      simp

theorem fcAt_addObj_mem (m : List (Key × FolderContent)) (o : S3Object) (q c : Key) :
    c ∈ (fcAt (addObj m o) q).common_prefixes ↔
      c ∈ (fcAt m q).common_prefixes ∨ (q, c) ∈ chainPairs o.key := by
  unfold addObj
  rw [fcAt_addChain_mem]
  by_cases hm : endsSlash o.key
  · rw [if_pos hm]
  · rw [if_neg hm]
    have hcps : (fcAt (aupsert m (parentDir o.key) (fun ofc =>
        ⟨(ofc.getD fcEmpty).objects ++ [o], (ofc.getD fcEmpty).common_prefixes⟩)) q).common_prefixes
        = (fcAt m q).common_prefixes := by
      unfold fcAt
      rw [alookup_aupsert]
      by_cases h2 : parentDir o.key = q
      · subst h2
        rw [if_pos rfl]
        cases alookup m (parentDir o.key) <;> simp [fcEmpty]
      · rw [if_neg h2]
    rw [hcps]

theorem fcAt_addObj_nodup (m : List (Key × FolderContent)) (o : S3Object) (q : Key)
    (h : (fcAt m q).common_prefixes.Nodup) :
    (fcAt (addObj m o) q).common_prefixes.Nodup := by
  unfold addObj
  apply fcAt_addChain_nodup
  by_cases hm : endsSlash o.key
  · rw [if_pos hm]
    exact h
  · rw [if_neg hm]
    unfold fcAt
    rw [alookup_aupsert]
    by_cases h2 : parentDir o.key = q
    · subst h2
      rw [if_pos rfl]
      unfold fcAt at h
      cases halm : alookup m (parentDir o.key) <;> rw [halm] at h <;>
        simp_all [fcEmpty, List.nodup_append]
    · rw [if_neg h2]
      exact h

theorem addObj_isSome (m : List (Key × FolderContent)) (o : S3Object) (q : Key) :
    (alookup (addObj m o) q).isSome ↔
      (alookup m q).isSome ∨ (endsSlash o.key = false ∧ parentDir o.key = q) ∨
        ∃ c, (q, c) ∈ chainPairs o.key := by
  unfold addObj
  rw [addChain_isSome]
  by_cases hm : endsSlash o.key
  · rw [if_pos hm]
    simp [hm]
  · have hm' : endsSlash o.key = false := by simpa using hm
    rw [if_neg hm, aupsert_isSome]
    simp only [hm', true_and]
    constructor
    · rintro ((h1 | rfl) | hc)
      · exact Or.inl h1
      · exact Or.inr (Or.inl rfl)
      · exact Or.inr (Or.inr hc)
    · rintro (h1 | rfl | hc)
      · exact Or.inl (Or.inl h1)
      · exact Or.inl (Or.inr rfl)
      · exact Or.inr hc

/-- Predicate selecting the non-folder-marker objects whose immediate
parent folder is `q` (the objects pushed into `q`'s entry). -/
def belongsTo (q : Key) (o : S3Object) : Bool :=
  !endsSlash o.key && decide (parentDir o.key = q)

theorem fcAt_fold_objects (objs : List S3Object) : ∀ (m : List (Key × FolderContent)) (q : Key),
    (fcAt (objs.foldl addObj m) q).objects = (fcAt m q).objects ++ objs.filter (belongsTo q) := by
  induction objs with
  | nil => intro m q; simp
  | cons o objs ih =>
      intro m q
      rw [List.foldl_cons, ih, fcAt_addObj_objects]
      by_cases h1 : endsSlash o.key = false ∧ parentDir o.key = q
      · rw [if_pos h1]
        rw [List.filter_cons_of_pos (by simp [belongsTo, h1.1, h1.2])]
        simp
      · rw [if_neg h1]
        rw [List.filter_cons_of_neg (by simp [belongsTo]; tauto)]
        simp

theorem fcAt_fold_mem (objs : List S3Object) : ∀ (m : List (Key × FolderContent)) (q c : Key),
    c ∈ (fcAt (objs.foldl addObj m) q).common_prefixes ↔
      c ∈ (fcAt m q).common_prefixes ∨ ∃ o ∈ objs, (q, c) ∈ chainPairs o.key := by
  induction objs with
  | nil => intro m q c; simp
  | cons o objs ih =>
      intro m q c
      rw [List.foldl_cons, ih, fcAt_addObj_mem]
      simp only [List.mem_cons]
      constructor
      · rintro ((h1 | h2) | ⟨o', ho', hc⟩)
        · exact Or.inl h1
        · exact Or.inr ⟨o, Or.inl rfl, h2⟩
        · exact Or.inr ⟨o', Or.inr ho', hc⟩
      · rintro (h1 | ⟨o', rfl | ho', hc⟩)
        · exact Or.inl (Or.inl h1)
        · exact Or.inl (Or.inr hc)
        · exact Or.inr ⟨o', ho', hc⟩

theorem fcAt_fold_nodup (objs : List S3Object) : ∀ (m : List (Key × FolderContent)) (q : Key),
    (fcAt m q).common_prefixes.Nodup → (fcAt (objs.foldl addObj m) q).common_prefixes.Nodup := by
  induction objs with
  | nil => intro m q h; exact h
  | cons o objs ih =>
      intro m q h
      rw [List.foldl_cons]
      exact ih _ q (fcAt_addObj_nodup m o q h)

theorem fold_isSome_of (objs : List S3Object) : ∀ (m : List (Key × FolderContent)) (q : Key),
    ((alookup m q).isSome ∨ ∃ o ∈ objs,
        (endsSlash o.key = false ∧ parentDir o.key = q) ∨ ∃ c, (q, c) ∈ chainPairs o.key) →
    (alookup (objs.foldl addObj m) q).isSome := by
  induction objs with
  | nil =>
      intro m q h
      simpa using h.resolve_right (by simp)
  | cons o objs ih =>
      intro m q h
      rw [List.foldl_cons]
      apply ih
      rw [addObj_isSome]
      rcases h with h1 | ⟨o', ho', h2⟩
      · exact Or.inl (Or.inl h1)
      · rcases List.mem_cons.mp ho' with rfl | ho''
        · exact Or.inl (Or.inr h2)
        · exact Or.inr ⟨o', ho'', h2⟩

theorem fcAt_init (q : Key) : fcAt [(([] : Key), fcEmpty)] q = fcEmpty := by
  unfold fcAt alookup
  by_cases h : ([] : Key) = q
  · rw [if_pos h]
    rfl
  · rw [if_neg h]
    rfl

theorem init_isSome (q : Key) :
    (alookup [(([] : Key), fcEmpty)] q).isSome ↔ q = [] := by
  unfold alookup
  by_cases h : ([] : Key) = q
  · rw [if_pos h]
    simp [h.symm]
  · rw [if_neg h]
    simp only [alookup, Option.isSome_none, Bool.false_eq_true, false_iff]
    intro h2
    exact h h2.symm

theorem buildFolders_objects (objs : List S3Object) (q : Key) :
    (fcAt (buildFolders objs) q).objects = objs.filter (belongsTo q) := by
  rw [buildFolders, fcAt_fold_objects, fcAt_init]
  rfl

theorem buildFolders_mem (objs : List S3Object) (q c : Key) :
    c ∈ (fcAt (buildFolders objs) q).common_prefixes ↔
      ∃ o ∈ objs, (q, c) ∈ chainPairs o.key := by
  rw [buildFolders, fcAt_fold_mem]
  rw [fcAt_init]
  simp [fcEmpty]

theorem buildFolders_nodup (objs : List S3Object) (q : Key) :
    (fcAt (buildFolders objs) q).common_prefixes.Nodup := by
  rw [buildFolders]
  apply fcAt_fold_nodup
  rw [fcAt_init]
  simp [fcEmpty]

theorem buildFolders_isSome_of (objs : List S3Object) (q : Key)
    (h : q = [] ∨ ∃ o ∈ objs,
        (endsSlash o.key = false ∧ parentDir o.key = q) ∨ ∃ c, (q, c) ∈ chainPairs o.key) :
    (alookup (buildFolders objs) q).isSome := by
  rw [buildFolders]
  apply fold_isSome_of
  rcases h with rfl | h2
  · exact Or.inl (by simp [alookup])
  · exact Or.inr h2

/-! ### Key uniqueness of the built map, and the final insertion pass -/

theorem aupsert_keys_mem {κ α : Type} [DecidableEq κ] (m : List (κ × α)) (k : κ) (f : Option α → α)
    (a : κ) : a ∈ (aupsert m k f).map Prod.fst ↔ a ∈ m.map Prod.fst ∨ a = k := by
  induction m with
  | nil => simp [aupsert]
  | cons e m ih =>
      obtain ⟨k0, v⟩ := e
      by_cases h0 : k0 = k
      · subst h0
        simp [aupsert]
        tauto
      · simp [aupsert, h0, ih]
        tauto

theorem aupsert_keys_nodup {κ α : Type} [DecidableEq κ] (m : List (κ × α)) (k : κ)
    (f : Option α → α) (h : (m.map Prod.fst).Nodup) : ((aupsert m k f).map Prod.fst).Nodup := by
  induction m with
  | nil => simp [aupsert]
  | cons e m ih =>
      obtain ⟨k0, v⟩ := e
      simp only [List.map_cons, List.nodup_cons] at h
      by_cases h0 : k0 = k
      · subst h0
        simpa [aupsert] using h
      · simp only [aupsert, if_neg h0, List.map_cons, List.nodup_cons]
        refine ⟨?_, ih h.2⟩
        rw [aupsert_keys_mem]
        rintro (h1 | rfl)
        · exact h.1 h1
        · exact h0 rfl

theorem pushChild_keys_nodup (m : List (Key × FolderContent)) (par path : Key)
    (h : (m.map Prod.fst).Nodup) : ((pushChild m par path).map Prod.fst).Nodup := by
  unfold pushChild
  split_ifs
  · exact h
  · exact aupsert_keys_nodup m par _ h

theorem addChain_keys_nodup (l : List (Key × Key)) : ∀ (m : List (Key × FolderContent)),
    (m.map Prod.fst).Nodup → ((addChain m l).map Prod.fst).Nodup := by
  induction l with
  | nil => intro m h; exact h
  | cons e l ih =>
      intro m h
      obtain ⟨par, path⟩ := e
      exact ih _ (pushChild_keys_nodup m par path h)

theorem addObj_keys_nodup (m : List (Key × FolderContent)) (o : S3Object)
    (h : (m.map Prod.fst).Nodup) : ((addObj m o).map Prod.fst).Nodup := by
  unfold addObj
  apply addChain_keys_nodup
  split_ifs
  · exact h
  · exact aupsert_keys_nodup m _ _ h

theorem buildFolders_keys_nodup (objs : List S3Object) :
    ((buildFolders objs).map Prod.fst).Nodup := by
  rw [buildFolders]
  have : ∀ (m : List (Key × FolderContent)), (m.map Prod.fst).Nodup →
      ((objs.foldl addObj m).map Prod.fst).Nodup := by
    induction objs with
    | nil => intro m h; exact h
    | cons o objs ih =>
        intro m h
        rw [List.foldl_cons]
        exact ih _ (addObj_keys_nodup m o h)
  exact this _ (by simp)

theorem foldIns_notMem (pid b : Key) (l : List (Key × FolderContent)) :
    ∀ (acc : List ((Key × Key × Key) × FolderContent)) (p : Key), (∀ e ∈ l, e.1 ≠ p) →
    alookup (l.foldl (fun acc e => aupsert acc (pid, b, e.1) (fun _ => sortFC e.2)) acc)
        (pid, b, p) = alookup acc (pid, b, p) := by
  induction l with
  | nil => intro acc p _; rfl
  | cons e l ih =>
      intro acc p h
      rw [List.foldl_cons, ih _ p (fun e' he' => h e' (List.mem_cons_of_mem e he'))]
      rw [alookup_aupsert]
      rw [if_neg]
      intro hT
      have : e.1 = p := by
        simpa using hT
      exact h e (List.mem_cons_self e l) this

theorem foldIns_mem (pid b : Key) (l : List (Key × FolderContent)) :
    ∀ (acc : List ((Key × Key × Key) × FolderContent)) (p : Key) (fc : FolderContent),
    (l.map Prod.fst).Nodup → alookup l p = some fc →
    alookup (l.foldl (fun acc e => aupsert acc (pid, b, e.1) (fun _ => sortFC e.2)) acc)
        (pid, b, p) = some (sortFC fc) := by
  induction l with
  | nil => intro acc p fc _ hl; simp [alookup] at hl
  | cons e l ih =>
      intro acc p fc hnd hl
      obtain ⟨k0, v0⟩ := e
      simp only [List.map_cons, List.nodup_cons] at hnd
      by_cases he : k0 = p
      · subst he
        have hfc : v0 = fc := by
          simpa [alookup] using hl
        subst hfc
        rw [List.foldl_cons]
        rw [foldIns_notMem pid b l _ k0 ?hnotin]
        · rw [alookup_aupsert, if_pos rfl]
        case hnotin =>
          intro e' he' heq
          exact hnd.1 (heq ▸ List.mem_map_of_mem Prod.fst he')
      · have hl' : alookup l p = some fc := by
          simpa [alookup, he] using hl
        rw [List.foldl_cons]
        exact ih _ p fc hnd.2 hl'

/-- Master lemma: after `set_cached_objects` on a fresh manager, the
folder cache at `(pid, bucket, p)` is exactly the built in-pass entry at
`p`, sorted. -/
theorem get_folder_content_sco (pid b : Key) (objs : List S3Object) (p : Key) :
    get_folder_content (set_cached_objects S3ClientManager.new pid b objs) pid b p
      = (alookup (buildFolders objs) p).map sortFC := by
  unfold get_folder_content set_cached_objects S3ClientManager.new
  cases hl : alookup (buildFolders objs) p with
  | none =>
      rw [foldIns_notMem pid b _ _ p]
      · rfl
      · intro e he heq
        rw [alookup_eq_none_iff] at hl
        exact hl e he heq
  | some fc =>
      rw [foldIns_mem pid b _ _ p fc (buildFolders_keys_nodup objs) hl]
      rfl

theorem fcAt_of_alookup_some {m : List (Key × FolderContent)} {p : Key} {fc : FolderContent}
    (h : alookup m p = some fc) : fcAt m p = fc := by
  unfold fcAt
  rw [h]
  rfl

theorem isSome_map_sortFC (o : Option FolderContent) : (o.map sortFC).isSome = o.isSome := by
  cases o <;> rfl

/-! ### Claim C1 -/

/-- C1, corrected (see `c1_counterexample`): for a folder-marker key the
source's chain loop stops one level short, so the marker's immediate
parent folder is not guaranteed an entry of its own.  This theorem
proves the amended claim: after `set_cached_objects` on a fresh manager,
(1) a root (empty-prefix) entry exists; (2) an entry exists for every
folder prefix that is an ancestor of some key, except possibly the
immediate parent folder of a key ending in `'/'`; (3) every entry's
`common_prefixes` is duplicate-free, lexicographically sorted, and holds
exactly the immediate child folders of the entry's prefix among the
ancestor folders of the input keys; (4) every entry's `objects` is
sorted by key and is a permutation of exactly the non-folder-marker
input objects whose immediate parent folder is the entry's prefix — in
particular keys ending in `'/'` appear in no entry's `objects` list. -/
theorem c1_folder_tree_build (pid b : Key) (objs : List S3Object) :
    (get_folder_content (set_cached_objects S3ClientManager.new pid b objs) pid b []).isSome
    ∧ (∀ c : Key,
        (∃ o ∈ objs, IsAncestor c o.key ∧ (endsSlash o.key = true → c ≠ parentDir o.key)) →
        (get_folder_content (set_cached_objects S3ClientManager.new pid b objs) pid b c).isSome)
    ∧ (∀ p fc,
        get_folder_content (set_cached_objects S3ClientManager.new pid b objs) pid b p
            = some fc →
        fc.common_prefixes.Nodup
        ∧ fc.common_prefixes.Sorted (· ≤ ·)
        ∧ (∀ c, c ∈ fc.common_prefixes ↔ parentDir c = p ∧ ∃ o ∈ objs, IsAncestor c o.key)
        ∧ fc.objects.Sorted objLe
        ∧ fc.objects.Perm (objs.filter (belongsTo p))
        ∧ (∀ o ∈ fc.objects, endsSlash o.key = false)) := by
  refine ⟨?_, ?_, ?_⟩
  · rw [get_folder_content_sco, isSome_map_sortFC]
    exact buildFolders_isSome_of objs [] (Or.inl rfl)
  · rintro c ⟨o, ho, hanc, hmark⟩
    rw [get_folder_content_sco, isSome_map_sortFC]
    apply buildFolders_isSome_of objs c
    rcases ancestor_bridge c o.key hanc hmark with ⟨hmk, hpd⟩ | ⟨c', hanc', hpd'⟩
    · exact Or.inr ⟨o, ho, Or.inl ⟨hmk, hpd.symm⟩⟩
    · refine Or.inr ⟨o, ho, Or.inr ⟨c', ?_⟩⟩
      exact (chainPairs_mem o.key c c').mpr ⟨hanc', hpd'.symm⟩
  · intro p fc hfc
    rw [get_folder_content_sco] at hfc
    obtain ⟨fc0, h0, rfl⟩ := Option.map_eq_some'.mp hfc
    have hat : fcAt (buildFolders objs) p = fc0 := fcAt_of_alookup_some h0
    refine ⟨?_, ?_, ?_, ?_, ?_, ?_⟩
    · apply (List.perm_insertionSort (· ≤ ·) fc0.common_prefixes).symm.nodup
      rw [← hat]
      exact buildFolders_nodup objs p
    · exact List.sorted_insertionSort (· ≤ ·) fc0.common_prefixes
    · intro c
      rw [show (sortFC fc0).common_prefixes = fc0.common_prefixes.insertionSort (· ≤ ·) from rfl]
      rw [(List.perm_insertionSort (· ≤ ·) fc0.common_prefixes).mem_iff]
      rw [← hat, buildFolders_mem]
      constructor
      · rintro ⟨o, ho, hoc⟩
        obtain ⟨ha, hp⟩ := (chainPairs_mem o.key p c).mp hoc
        exact ⟨hp.symm, o, ho, ha⟩
      · rintro ⟨hp, o, ho, ha⟩
        exact ⟨o, ho, (chainPairs_mem o.key p c).mpr ⟨ha, hp.symm⟩⟩
    · exact List.sorted_insertionSort objLe fc0.objects
    · rw [show (sortFC fc0).objects = fc0.objects.insertionSort objLe from rfl]
      have heq : fc0.objects = objs.filter (belongsTo p) := by
        rw [← hat, buildFolders_objects]
      rw [← heq]
      exact List.perm_insertionSort objLe fc0.objects
    · intro o hmem
      have h1 : o ∈ fc0.objects :=
        (List.perm_insertionSort objLe fc0.objects).subset hmem
      rw [← hat, buildFolders_objects] at h1
      have := List.of_mem_filter h1
      simp only [belongsTo, Bool.and_eq_true, Bool.not_eq_true'] at this
      exact this.1

/-- C1's counterexample: for the single folder-marker key `"a/b/"`, the
prefix `"a/"` is an ancestor of the key, yet the resulting folder cache
has no entry for it (the marker contributes only the pair
`("", "a/")`). -/
theorem c1_counterexample :
    IsAncestor ("a/".toList) ("a/b/".toList) ∧
    get_folder_content
        (set_cached_objects S3ClientManager.new [] [] [⟨"a/b/".toList, none, 0, none⟩])
        [] [] ("a/".toList) = none := by
  constructor
  · decide
  · rfl

/-- C1's witness: on the spec's end-to-end example the amended
entry-existence clause is satisfiable and produces an entry for the
ancestor `"a/c/"` of `"a/c/d.txt"`. -/
theorem c1_folder_tree_build_witness :
    (∃ o ∈ [(⟨"a/b.txt".toList, none, 1, none⟩ : S3Object),
            ⟨"a/c/d.txt".toList, none, 2, none⟩, ⟨"e.txt".toList, none, 3, none⟩],
        IsAncestor ("a/c/".toList) o.key ∧
          (endsSlash o.key = true → ("a/c/".toList) ≠ parentDir o.key))
    ∧ (get_folder_content
        (set_cached_objects S3ClientManager.new [] []
          [⟨"a/b.txt".toList, none, 1, none⟩, ⟨"a/c/d.txt".toList, none, 2, none⟩,
           ⟨"e.txt".toList, none, 3, none⟩]) [] [] ("a/c/".toList)).isSome :=
  ⟨by decide,
   (c1_folder_tree_build [] []
      [⟨"a/b.txt".toList, none, 1, none⟩, ⟨"a/c/d.txt".toList, none, 2, none⟩,
       ⟨"e.txt".toList, none, 3, none⟩]).2.1 ("a/c/".toList) (by decide)⟩

/-! ### Cached pagination (`list_objects`, `src/commands/objects.rs` lines 41-99) -/

/-- Model of `max_keys as usize` for `max_keys : i32`: the cast
sign-extends, so a negative value wraps modulo `2 ^ 64` (64-bit
`usize`). -/
def i32AsUsize (m : Int) : Nat := (m % (2 ^ 64 : Int)).toNat

/-- Decimal digit character (`'0'` + `d`). -/
def digitChar (d : Nat) : Char := Char.ofNat ('0'.toNat + d)

/-- Little-endian decimal digits of `n` (empty for `0`). -/
def natDigitsRev (n : Nat) : Key :=
  if n = 0 then [] else digitChar (n % 10) :: natDigitsRev (n / 10)

/-- Model of `usize::to_string` (as used by `end.to_string()` for the
next continuation token). -/
def natToChars (n : Nat) : Key :=
  if n = 0 then ['0'] else (natDigitsRev n).reverse

/-- Numeric value of a decimal digit character, if it is one. -/
def digitVal? (c : Char) : Option Nat :=
  if '0' ≤ c ∧ c ≤ '9' then some (c.toNat - '0'.toNat) else none

/-- Big-endian digit accumulation. -/
def parseDigitsAux (acc : Nat) : Key → Option Nat
  | [] => some acc
  | c :: rest =>
      match digitVal? c with
      | some d => parseDigitsAux (acc * 10 + d) rest
      | none => none

/-- Model of `str::parse::<usize>()`: an optional leading `'+'`, then
one or more decimal digits; a value of `2 ^ 64` or more is an overflow
and fails to parse. -/
def parseUsize (t : Key) : Option Nat :=
  let t' := if t.head? = some '+' then t.tail else t
  if t' = [] then none
  else (parseDigitsAux 0 t').bind (fun v => if v < 2 ^ 64 then some v else none)

/-- Rust slice indexing `l[a..b]`: `none` models the panic raised when
`a > b` or `b > l.length`. -/
def slice {α : Type} (l : List α) (a b : Nat) : Option (List α) :=
  if a ≤ b ∧ b ≤ l.length then some ((l.drop a).take (b - a)) else none

/-- Model of `ListObjectsResult` (`src/commands/objects.rs` lines 7-15;
the `prefix` field is called `prefix_str` here). -/
structure ListObjectsResult where
  objects : List S3Object
  common_prefixes : List Key
  next_continuation_token : Option Key
  is_truncated : Bool
  prefix_str : Key
  bucket_region : Option Key
deriving DecidableEq

/-- Model of the cache-hit path of `list_objects` (lines 44-98),
entered when the bucket `has_cache` and the cache is not bypassed:
offset pagination over a cached `FolderContent`
(`continuation_token.parse::<usize>()` falling back to `0`,
`max_keys.unwrap_or(1000) as usize`, `end = (offset + max).min(len)`
with release-mode wrapping addition, slice `objects[offset..end]`),
else the exact-key single-object fallback, else the known-empty-folder
page.  `none` models the slice-index panic. -/
def list_objects_cached (m : S3ClientManager) (pid bucket prefix_str : Key)
    (continuation_token : Option Key) (max_keys : Option Int) (bucket_region : Option Key) :
    Option ListObjectsResult :=
  match get_folder_content m pid bucket prefix_str with
  | some content =>
      let offset := (continuation_token.bind parseUsize).getD 0
      let maxN := (max_keys.map i32AsUsize).getD 1000
      let endIdx := min ((offset + maxN) % 2 ^ 64) content.objects.length
      match slice content.objects offset endIdx with
      | none => none
      | some page =>
          let next_token :=
            if endIdx < content.objects.length then some (natToChars endIdx) else none
          some ⟨page, if offset = 0 then content.common_prefixes else [],
                next_token, next_token.isSome, prefix_str, bucket_region⟩
  | none =>
      match get_object_from_cache m pid bucket prefix_str with
      | some obj => some ⟨[obj], [], none, false, prefix_str, bucket_region⟩
      | none => some ⟨[], [], none, false, prefix_str, bucket_region⟩

/-- Repeatedly call the cached-pagination path, feeding each returned
continuation token back in, until a page is final (used to state the
whole-listing pagination claim).  `fuel` bounds the recursion; a slice
panic ends the collection. -/
def collectPages (m : S3ClientManager) (pid bucket prefix_str : Key) (max_keys : Option Int)
    (bucket_region : Option Key) : Nat → Option Key → List ListObjectsResult
  | 0, _ => []
  | fuel + 1, tok =>
      match list_objects_cached m pid bucket prefix_str tok max_keys bucket_region with
      | none => []
      | some page =>
          if page.is_truncated then
            page :: collectPages m pid bucket prefix_str max_keys bucket_region fuel
              page.next_continuation_token
          else [page]

/-! ### Decimal round trip -/

theorem digitVal?_digitChar (d : Nat) (h : d < 10) : digitVal? (digitChar d) = some d := by
  interval_cases d <;> decide

theorem digitChar_ne_plus (d : Nat) (h : d < 10) : digitChar d ≠ '+' := by
  interval_cases d <;> decide

theorem natDigitsRev_mem (n : Nat) : ∀ c ∈ natDigitsRev n, ∃ d, d < 10 ∧ c = digitChar d := by
  induction n using Nat.strong_induction_on with
  | _ n ih =>
      by_cases h0 : n = 0
      · subst h0
        rw [natDigitsRev]
        simp
      · rw [natDigitsRev, if_neg h0]
        intro c hc
        rcases List.mem_cons.mp hc with rfl | hc2
        · exact ⟨n % 10, Nat.mod_lt n (by omega), rfl⟩
        · exact ih (n / 10) (Nat.div_lt_self (by omega) (by omega)) c hc2

theorem parseDigitsAux_append (xs ys : Key) : ∀ acc,
    parseDigitsAux acc (xs ++ ys) = (parseDigitsAux acc xs).bind (fun a => parseDigitsAux a ys) := by
  induction xs with
  | nil => intro acc; rfl
  | cons c xs ih =>
      intro acc
      rw [List.cons_append, parseDigitsAux, parseDigitsAux]
      cases digitVal? c with
      | none => rfl
      | some d => exact ih (acc * 10 + d)

theorem parseDigitsAux_rev (n : Nat) : ∀ acc,
    parseDigitsAux acc (natDigitsRev n).reverse
      = some (acc * 10 ^ (natDigitsRev n).length + n) := by
  induction n using Nat.strong_induction_on with
  | _ n ih =>
      intro acc
      by_cases h0 : n = 0
      · subst h0
        rw [natDigitsRev]
        simp [parseDigitsAux]
      · rw [natDigitsRev, if_neg h0]
        rw [List.reverse_cons, parseDigitsAux_append]
        rw [ih (n / 10) (Nat.div_lt_self (by omega) (by omega)) acc]
        rw [Option.some_bind]
        rw [parseDigitsAux, digitVal?_digitChar (n % 10) (Nat.mod_lt n (by omega))]
        show some ((acc * 10 ^ (natDigitsRev (n / 10)).length + n / 10) * 10 + n % 10) = _
        have hlen : (digitChar (n % 10) :: natDigitsRev (n / 10)).length
            = (natDigitsRev (n / 10)).length + 1 := by simp
        rw [hlen, pow_succ]
        congr 1
        have harith : (acc * 10 ^ (natDigitsRev (n / 10)).length + n / 10) * 10 + n % 10
            = acc * (10 ^ (natDigitsRev (n / 10)).length * 10) + (n / 10 * 10 + n % 10) := by
          ring
        rw [harith]
        congr 1
        omega

theorem parseUsize_natToChars (n : Nat) (h : n < 2 ^ 64) : parseUsize (natToChars n) = some n := by
  by_cases h0 : n = 0
  · subst h0
    decide
  · rw [natToChars, if_neg h0]
    have hne : natDigitsRev n ≠ [] := by
      rw [natDigitsRev, if_neg h0]
      simp
    have hrev : (natDigitsRev n).reverse ≠ [] := by simpa using hne
    have hhead : ¬((natDigitsRev n).reverse.head? = some '+') := by
      intro hh
      have hc : '+' ∈ (natDigitsRev n).reverse := List.mem_of_mem_head? hh
      rw [List.mem_reverse] at hc
      obtain ⟨d, hd, hdc⟩ := natDigitsRev_mem n '+' hc
      exact digitChar_ne_plus d hd hdc.symm
    rw [parseUsize]
    simp only [if_neg hhead, if_neg hrev]
    rw [parseDigitsAux_rev n 0]
    rw [Option.some_bind]
    rw [show 0 * 10 ^ (natDigitsRev n).length + n = n by ring]
    rw [if_pos h]

/-! ### Per-call characterization of the cached page -/

theorem cached_page_at (m : S3ClientManager) (pid bucket pre : Key) (content : FolderContent)
    (h : get_folder_content m pid bucket pre = some content) (mk : Option Int)
    (breg : Option Key) (N : Nat) (hN : (mk.map i32AsUsize).getD 1000 = N)
    (off : Nat) (hoff : off ≤ content.objects.length) (hw : off + N < 2 ^ 64) :
    list_objects_cached m pid bucket pre (some (natToChars off)) mk breg =
      some ⟨(content.objects.drop off).take N,
            if off = 0 then content.common_prefixes else [],
            if off + N < content.objects.length then some (natToChars (off + N)) else none,
            decide (off + N < content.objects.length), pre, breg⟩ := by
  have hparse : parseUsize (natToChars off) = some off := parseUsize_natToChars off (by omega)
  unfold list_objects_cached slice
  rw [h]
  simp only [Option.some_bind, hparse, Option.getD_some, hN, Nat.mod_eq_of_lt hw]
  by_cases hlt : off + N < content.objects.length
  · rw [min_eq_left (le_of_lt hlt)]
    rw [if_pos ⟨by omega, le_of_lt hlt⟩]
    rw [show off + N - off = N from by omega]
    simp [hlt]
  · rw [min_eq_right (by omega)]
    rw [if_pos ⟨hoff, le_refl _⟩]
    have h1 : (content.objects.drop off).take (content.objects.length - off)
        = (content.objects.drop off).take N := by
      rw [List.take_of_length_le (by simp), List.take_of_length_le (by simp; omega)]
    rw [h1]
    simp [hlt]

theorem cached_page_none_tok (m : S3ClientManager) (pid bucket pre : Key) (mk : Option Int)
    (breg : Option Key) :
    list_objects_cached m pid bucket pre none mk breg
      = list_objects_cached m pid bucket pre (some (natToChars 0)) mk breg := by
  have hp : parseUsize (natToChars 0) = some 0 := by decide
  unfold list_objects_cached
  cases get_folder_content m pid bucket pre with
  | none => rfl
  | some content => simp [hp]

/-- Iterating the cached page through its own continuation tokens:
with enough fuel, the pages starting at a valid offset cover exactly
the tail of the sorted object list; the page count is one for an
empty remainder and the ceiling of remainder / page size otherwise;
and every page at a nonzero offset has empty `common_prefixes`. -/
theorem collectPages_spec (m : S3ClientManager) (pid bucket pre : Key) (content : FolderContent)
    (h : get_folder_content m pid bucket pre = some content) (mk : Option Int)
    (breg : Option Key) (N : Nat) (hN : (mk.map i32AsUsize).getD 1000 = N) (hNpos : 0 < N)
    (hbound : content.objects.length + N < 2 ^ 64) :
    ∀ fuel off, off ≤ content.objects.length → content.objects.length - off < fuel →
      (((collectPages m pid bucket pre mk breg fuel (some (natToChars off))).map
          (fun r => r.objects)).flatten = content.objects.drop off)
      ∧ ((collectPages m pid bucket pre mk breg fuel (some (natToChars off))).length
          = if off = content.objects.length then 1
            else (content.objects.length - off - 1) / N + 1)
      ∧ (off ≠ 0 → ∀ pg ∈ collectPages m pid bucket pre mk breg fuel (some (natToChars off)),
          pg.common_prefixes = [])
      ∧ (∀ pg ∈ (collectPages m pid bucket pre mk breg fuel (some (natToChars off))).drop 1,
          pg.common_prefixes = []) := by
  intro fuel
  induction fuel with
  | zero => intro off _ hf; omega
  | succ fuel ih =>
      intro off hoff hf
      have hw : off + N < 2 ^ 64 := by omega
      have hpage := cached_page_at m pid bucket pre content h mk breg N hN off hoff hw
      rw [collectPages, hpage]
      by_cases htr : off + N < content.objects.length
      · have hdec : decide (off + N < content.objects.length) = true := decide_eq_true htr
        simp only [hdec, if_true, if_pos htr]
        have hoff2 : off + N ≤ content.objects.length := le_of_lt htr
        have hf2 : content.objects.length - (off + N) < fuel := by omega
        obtain ⟨ihj, ihl, ihc, ihd⟩ := ih (off + N) hoff2 hf2
        refine ⟨?_, ?_, ?_, ?_⟩
        · rw [List.map_cons, List.flatten_cons, ihj]
          rw [show content.objects.drop (off + N)
              = (content.objects.drop off).drop N from by rw [List.drop_drop]]
          exact List.take_append_drop N (content.objects.drop off)
        · rw [List.length_cons, ihl]
          rw [if_neg (by omega), if_neg (by omega)]
          have harith : content.objects.length - off - 1
              = (content.objects.length - (off + N) - 1) + N := by omega
          rw [harith, Nat.add_div_right _ hNpos]
        · intro hoffne pg hpg
          rcases List.mem_cons.mp hpg with rfl | hpg2
          · simp [if_neg hoffne]
          · exact ihc (by omega) pg hpg2
        · intro pg hpg
          rw [List.drop_one, List.tail_cons] at hpg
          exact ihc (by omega) pg hpg
      · have hdec : decide (off + N < content.objects.length) = false := by
          simp [htr]
        simp only [hdec, Bool.false_eq_true, if_false, if_neg htr]
        refine ⟨?_, ?_, ?_, ?_⟩
        · rw [List.map_cons, List.map_nil, List.flatten_cons, List.flatten_nil, List.append_nil]
          exact List.take_of_length_le (by rw [List.length_drop]; omega)
        · rw [List.length_cons, List.length_nil]
          by_cases hoe : off = content.objects.length
          · rw [if_pos hoe]
          · rw [if_neg hoe]
            rw [Nat.div_eq_of_lt (by omega)]
        · intro hoffne pg hpg
          rcases List.mem_singleton.mp hpg with rfl
          simp [if_neg hoffne]
        · intro pg hpg
          simp at hpg

theorem collectPages_none_eq (m : S3ClientManager) (pid bucket pre : Key) (mk : Option Int)
    (breg : Option Key) (fuel : Nat) :
    collectPages m pid bucket pre mk breg (fuel + 1) none
      = collectPages m pid bucket pre mk breg (fuel + 1) (some (natToChars 0)) := by
  rw [collectPages, collectPages, cached_page_none_tok]

/-! ### Claim C2 -/

/-- C2, confirmed: on a cached bucket whose prefix has a
`FolderContent` entry, the continuation token is a zero-based offset
into the sorted objects list; the returned page is
`objects[offset..offset+max]` (so its length is
`min max (remaining)`), `is_truncated` holds iff `offset + page length
< total`, the next token is the end offset in decimal exactly when
truncated, `common_prefixes` is returned only at offset `0`; and
following the tokens from the first page yields `ceil(M/N)` pages
(one empty page when `M = 0`) whose concatenation is exactly the
cached object list.  Stated for non-wrapping `offset + max` (the
in-range offsets the code itself issues). -/
theorem c2_cached_pagination (m : S3ClientManager) (pid bucket pre : Key)
    (content : FolderContent) (h : get_folder_content m pid bucket pre = some content)
    (_hc : has_cache m pid bucket = true)
    (mk : Option Int) (breg : Option Key) (N : Nat)
    (hN : (mk.map i32AsUsize).getD 1000 = N) (hNpos : 0 < N)
    (hbound : content.objects.length + N < 2 ^ 64) :
    (∀ off ≤ content.objects.length,
        list_objects_cached m pid bucket pre (some (natToChars off)) mk breg =
          some ⟨(content.objects.drop off).take N,
                if off = 0 then content.common_prefixes else [],
                if off + N < content.objects.length then some (natToChars (off + N)) else none,
                decide (off + N < content.objects.length), pre, breg⟩)
    ∧ (∀ off ≤ content.objects.length,
        ((content.objects.drop off).take N).length = min N (content.objects.length - off))
    ∧ list_objects_cached m pid bucket pre none mk breg =
        some ⟨content.objects.take N, content.common_prefixes,
              if N < content.objects.length then some (natToChars N) else none,
              decide (N < content.objects.length), pre, breg⟩
    ∧ (((collectPages m pid bucket pre mk breg (content.objects.length + 1) none).map
          (fun r => r.objects)).flatten = content.objects)
    ∧ (0 < content.objects.length →
        (collectPages m pid bucket pre mk breg (content.objects.length + 1) none).length
          = (content.objects.length + N - 1) / N)
    ∧ (content.objects.length = 0 →
        (collectPages m pid bucket pre mk breg (content.objects.length + 1) none).length = 1)
    ∧ (∀ pg ∈ (collectPages m pid bucket pre mk breg (content.objects.length + 1) none).drop 1,
        pg.common_prefixes = [])
    ∧ (∀ pg, (collectPages m pid bucket pre mk breg (content.objects.length + 1) none).head?
          = some pg → pg.common_prefixes = content.common_prefixes) := by
  have hpage0 : list_objects_cached m pid bucket pre none mk breg =
      some ⟨content.objects.take N, content.common_prefixes,
            if N < content.objects.length then some (natToChars N) else none,
            decide (N < content.objects.length), pre, breg⟩ := by
    rw [cached_page_none_tok]
    rw [cached_page_at m pid bucket pre content h mk breg N hN 0 (by omega) (by omega)]
    simp
  have hspec := collectPages_spec m pid bucket pre content h mk breg N hN hNpos hbound
  obtain ⟨hj, hl, _, hd⟩ :=
    hspec (content.objects.length + 1) 0 (by omega) (by omega)
  have hcoll := collectPages_none_eq m pid bucket pre mk breg content.objects.length
  refine ⟨?_, ?_, hpage0, ?_, ?_, ?_, ?_, ?_⟩
  · intro off hoff
    exact cached_page_at m pid bucket pre content h mk breg N hN off hoff (by omega)
  · intro off hoff
    simp
  · rw [hcoll, hj, List.drop_zero]
  · intro hM
    rw [hcoll, hl, if_neg (by omega)]
    have : content.objects.length + N - 1 = (content.objects.length - 0 - 1) + N := by omega
    rw [this, Nat.add_div_right _ hNpos]
  · intro hM
    rw [hcoll, hl, if_pos hM.symm]
  · intro pg hpg
    rw [hcoll] at hpg
    exact hd pg hpg
  · intro pg hpg
    rw [collectPages, hpage0] at hpg
    dsimp only at hpg
    have hhead : ∀ (b : Bool) (rest : List ListObjectsResult) (page : ListObjectsResult),
        (if b = true then page :: rest else [page]).head? = some page := by
      intro b rest page
      cases b <;> rfl
    rw [hhead] at hpg
    cases hpg
    rfl

/-- C2's witness: a concrete cached bucket of three objects paged with
`max_keys = 2` yields two pages. -/
theorem c2_cached_pagination_witness :
    (get_folder_content
        ⟨[], [((([] : Key), ([] : Key)),
               [⟨['a'], none, 0, none⟩, ⟨['b'], none, 0, none⟩, ⟨['c'], none, 0, none⟩])],
         [((([] : Key), ([] : Key), ([] : Key)),
           ⟨[⟨['a'], none, 0, none⟩, ⟨['b'], none, 0, none⟩, ⟨['c'], none, 0, none⟩], []⟩)], []⟩
        [] [] [] = some ⟨[⟨['a'], none, 0, none⟩, ⟨['b'], none, 0, none⟩,
                          ⟨['c'], none, 0, none⟩], []⟩)
    ∧ (collectPages
        ⟨[], [((([] : Key), ([] : Key)),
               [⟨['a'], none, 0, none⟩, ⟨['b'], none, 0, none⟩, ⟨['c'], none, 0, none⟩])],
         [((([] : Key), ([] : Key), ([] : Key)),
           ⟨[⟨['a'], none, 0, none⟩, ⟨['b'], none, 0, none⟩, ⟨['c'], none, 0, none⟩], []⟩)], []⟩
        [] [] [] (some 2) none 4 none).length = 2 :=
  ⟨rfl,
   (c2_cached_pagination
      ⟨[], [((([] : Key), ([] : Key)),
             [⟨['a'], none, 0, none⟩, ⟨['b'], none, 0, none⟩, ⟨['c'], none, 0, none⟩])],
       [((([] : Key), ([] : Key), ([] : Key)),
         ⟨[⟨['a'], none, 0, none⟩, ⟨['b'], none, 0, none⟩, ⟨['c'], none, 0, none⟩], []⟩)], []⟩
      [] [] []
      ⟨[⟨['a'], none, 0, none⟩, ⟨['b'], none, 0, none⟩, ⟨['c'], none, 0, none⟩], []⟩
      rfl rfl (some 2) none 2 (by decide) (by decide) (by decide)).2.2.2.2.1 (by decide)⟩

/-! ### Claim C7 -/

/-- C7, confirmed: on a cached bucket whose prefix has no
`FolderContent` entry, the cache path performs no pagination: if the
prefix is the exact key of some cached object the page holds exactly
that (first-matching) object with empty `common_prefixes`, no token and
`is_truncated = false`; otherwise the page is completely empty.  The
single-object branch fires exactly when some cached object's key equals
the prefix. -/
theorem c7_cached_fallbacks (m : S3ClientManager) (pid bucket pre : Key)
    (tok : Option Key) (mk : Option Int) (breg : Option Key)
    (_hc : has_cache m pid bucket = true)
    (h : get_folder_content m pid bucket pre = none) :
    (∀ o, get_object_from_cache m pid bucket pre = some o →
        o.key = pre ∧
        list_objects_cached m pid bucket pre tok mk breg =
          some ⟨[o], [], none, false, pre, breg⟩)
    ∧ (get_object_from_cache m pid bucket pre = none →
        list_objects_cached m pid bucket pre tok mk breg =
          some ⟨[], [], none, false, pre, breg⟩)
    ∧ ((get_object_from_cache m pid bucket pre).isSome ↔
        ∃ objs, get_cached_objects m pid bucket = some objs ∧ ∃ o ∈ objs, o.key = pre) := by
  refine ⟨?_, ?_, ?_⟩
  · intro o ho
    constructor
    · unfold get_object_from_cache at ho
      rcases Option.bind_eq_some.mp ho with ⟨objs, -, hfind⟩
      have hp := List.find?_some hfind
      exact of_decide_eq_true hp
    · unfold list_objects_cached
      rw [h, ho]
  · intro hn
    unfold list_objects_cached
    rw [h, hn]
  · unfold get_object_from_cache get_cached_objects
    cases halm : alookup m.object_cache (pid, bucket) with
    | none => simp
    | some objs =>
        rw [Option.some_bind]
        rw [List.find?_isSome]
        simp

/-- C7's witness: a bucket cached with the single object `"x"` queried
with prefix `"x"` returns exactly that object. -/
theorem c7_cached_fallbacks_witness :
    (has_cache ⟨[], [((([] : Key), ([] : Key)), [⟨['x'], none, 7, none⟩])], [], []⟩ [] [] = true)
    ∧ (get_folder_content ⟨[], [((([] : Key), ([] : Key)), [⟨['x'], none, 7, none⟩])], [], []⟩
        [] [] ['x'] = none)
    ∧ (list_objects_cached ⟨[], [((([] : Key), ([] : Key)), [⟨['x'], none, 7, none⟩])], [], []⟩
        [] [] ['x'] none none none
        = some ⟨[⟨['x'], none, 7, none⟩], [], none, false, ['x'], none⟩) :=
  ⟨rfl, rfl,
   ((c7_cached_fallbacks ⟨[], [((([] : Key), ([] : Key)), [⟨['x'], none, 7, none⟩])], [], []⟩
      [] [] ['x'] none none none rfl rfl).1 ⟨['x'], none, 7, none⟩ rfl).2⟩

/-! ### Claim C10 -/

/-- C10's counterexample: on a cached folder of one object, the
caller-supplied continuation token `"2"` parses to offset `2`, the
computed slice bounds are `2..1`, and the slice expression
`content.objects[offset..end]` panics (modelled as `none`) instead of
returning a page. -/
theorem c10_counterexample :
    list_objects_cached
        ⟨[], [((([] : Key), ([] : Key)), [⟨['k'], none, 0, none⟩])],
         [((([] : Key), ([] : Key), ([] : Key)), ⟨[⟨['k'], none, 0, none⟩], []⟩)], []⟩
        [] [] [] (some ['2']) none none = none := by
  rfl

/-- C10, corrected (see `c10_counterexample`): a token that does not
parse as a `usize` is treated as offset `0`; for parsed offsets of at
most the object-list length (with non-wrapping `offset + max`) the
slice bounds are in range and a page is returned — empty, final and
untruncated at offset = length; and the two no-`FolderContent`
branches are always total.  An offset strictly beyond the list length,
however, makes the slice expression panic, so the path is not total for
every caller-supplied token. -/
theorem c10_cached_pagination_totality (m : S3ClientManager) (pid bucket pre : Key)
    (mk : Option Int) (breg : Option Key) :
    (∀ t, parseUsize t = none →
        list_objects_cached m pid bucket pre (some t) mk breg
          = list_objects_cached m pid bucket pre none mk breg)
    ∧ (∀ content, get_folder_content m pid bucket pre = some content →
        ∀ N, (mk.map i32AsUsize).getD 1000 = N →
        ∀ off, off ≤ content.objects.length → off + N < 2 ^ 64 →
          (list_objects_cached m pid bucket pre (some (natToChars off)) mk breg).isSome = true)
    ∧ (∀ content, get_folder_content m pid bucket pre = some content →
        ∀ N, (mk.map i32AsUsize).getD 1000 = N →
          content.objects.length + N < 2 ^ 64 →
          list_objects_cached m pid bucket pre (some (natToChars content.objects.length)) mk breg
            = some ⟨[], if content.objects.length = 0 then content.common_prefixes else [],
                    none, false, pre, breg⟩)
    ∧ (get_folder_content m pid bucket pre = none →
        ∀ tok, (list_objects_cached m pid bucket pre tok mk breg).isSome = true) := by
  refine ⟨?_, ?_, ?_, ?_⟩
  · intro t ht
    unfold list_objects_cached
    cases get_folder_content m pid bucket pre with
    | none => rfl
    | some content => simp [ht]
  · intro content h N hN off hoff hw
    rw [cached_page_at m pid bucket pre content h mk breg N hN off hoff hw]
    rfl
  · intro content h N hN hw
    rw [cached_page_at m pid bucket pre content h mk breg N hN content.objects.length
      (le_refl _) hw]
    rw [List.drop_length, List.take_nil]
    rw [if_neg (show ¬(content.objects.length + N < content.objects.length) from by omega)]
    have : decide (content.objects.length + N < content.objects.length) = false := by
      simp
    rw [this]
  · intro h tok
    unfold list_objects_cached
    rw [h]
    cases get_object_from_cache m pid bucket pre <;> rfl

/-- C10's witness: an unparseable token (`"z"`) on a cached folder is
served as the first page. -/
theorem c10_cached_pagination_totality_witness :
    (parseUsize ['z'] = none)
    ∧ (list_objects_cached
        ⟨[], [((([] : Key), ([] : Key)), [⟨['k'], none, 0, none⟩])],
         [((([] : Key), ([] : Key), ([] : Key)), ⟨[⟨['k'], none, 0, none⟩], []⟩)], []⟩
        [] [] [] (some ['z']) none none
        = list_objects_cached
        ⟨[], [((([] : Key), ([] : Key)), [⟨['k'], none, 0, none⟩])],
         [((([] : Key), ([] : Key), ([] : Key)), ⟨[⟨['k'], none, 0, none⟩], []⟩)], []⟩
        [] [] [] none none none) :=
  ⟨by decide,
   (c10_cached_pagination_totality
      ⟨[], [((([] : Key), ([] : Key)), [⟨['k'], none, 0, none⟩])],
       [((([] : Key), ([] : Key), ([] : Key)), ⟨[⟨['k'], none, 0, none⟩], []⟩)], []⟩
      [] [] [] none none).1 ['z'] (by decide)⟩

/-! ### Claim C8 -/

/-- C8, confirmed: `remove_bucket_cache(p, b)` makes `has_cache(p, b)`
false, removes every folder-cache entry of `(p, b)` and bucket `b`'s
region entry, and leaves everything else exactly as it was: the object
and folder caches of every other `(profile, bucket)` pair — including
bucket `b` under a different profile — the region entries of other
buckets, and the whole client cache. -/
theorem c8_remove_bucket_cache (m : S3ClientManager) (pid bucket : Key) :
    has_cache (remove_bucket_cache m pid bucket) pid bucket = false
    ∧ (∀ pre, get_folder_content (remove_bucket_cache m pid bucket) pid bucket pre = none)
    ∧ get_bucket_region (remove_bucket_cache m pid bucket) bucket = none
    ∧ (∀ pid' bucket', (pid', bucket') ≠ (pid, bucket) →
        get_cached_objects (remove_bucket_cache m pid bucket) pid' bucket'
            = get_cached_objects m pid' bucket'
        ∧ has_cache (remove_bucket_cache m pid bucket) pid' bucket'
            = has_cache m pid' bucket'
        ∧ ∀ pre, get_folder_content (remove_bucket_cache m pid bucket) pid' bucket' pre
            = get_folder_content m pid' bucket' pre)
    ∧ (∀ bucket', bucket' ≠ bucket →
        get_bucket_region (remove_bucket_cache m pid bucket) bucket'
          = get_bucket_region m bucket')
    ∧ (remove_bucket_cache m pid bucket).clients = m.clients := by
  refine ⟨?_, ?_, ?_, ?_, ?_, rfl⟩
  · unfold has_cache remove_bucket_cache aremove
    rw [alookup_filter_of_fails]
    · rfl
    · intro v
      simp
  · intro pre
    unfold get_folder_content remove_bucket_cache
    rw [alookup_filter_of_fails]
    intro v
    simp
  · unfold get_bucket_region remove_bucket_cache aremove
    rw [alookup_filter_of_fails]
    intro v
    simp
  · intro pid' bucket' hne
    have hcomp : pid' ≠ pid ∨ bucket' ≠ bucket := by
      by_contra hcon
      push_neg at hcon
      exact hne (by rw [hcon.1, hcon.2])
    refine ⟨?_, ?_, ?_⟩
    · unfold get_cached_objects remove_bucket_cache aremove
      rw [alookup_filter_of_holds]
      intro v
      simp only [decide_eq_true_eq, ne_eq, Prod.mk.injEq]
      intro hcon
      rcases hcomp with hl | hr
      · exact hl hcon.1
      · exact hr hcon.2
    · unfold has_cache remove_bucket_cache aremove
      rw [alookup_filter_of_holds]
      intro v
      simp only [decide_eq_true_eq, ne_eq, Prod.mk.injEq]
      intro hcon
      rcases hcomp with hl | hr
      · exact hl hcon.1
      · exact hr hcon.2
    · intro pre
      unfold get_folder_content remove_bucket_cache
      rw [alookup_filter_of_holds]
      intro v
      simp only [Bool.or_eq_true, decide_eq_true_eq, ne_eq]
      rcases hcomp with hl | hr
      · exact Or.inl hl
      · exact Or.inr hr
  · intro bucket' hne
    unfold get_bucket_region remove_bucket_cache aremove
    rw [alookup_filter_of_holds]
    intro v
    simp [hne]

/-- C8's witness: evicting `(p1, b1)` leaves the cache entry of the
same bucket under another profile `p2` intact. -/
theorem c8_remove_bucket_cache_witness :
    ((['p', '2'] : Key), (['b', '1'] : Key)) ≠ ((['p', '1'] : Key), (['b', '1'] : Key))
    ∧ get_cached_objects
        (remove_bucket_cache
          ⟨[], [((['p', '1'], ['b', '1']), []), ((['p', '2'], ['b', '1']), [])], [], []⟩
          ['p', '1'] ['b', '1'])
        ['p', '2'] ['b', '1']
      = get_cached_objects
          ⟨[], [((['p', '1'], ['b', '1']), []), ((['p', '2'], ['b', '1']), [])], [], []⟩
          ['p', '2'] ['b', '1'] :=
  ⟨by decide,
   ((c8_remove_bucket_cache
      ⟨[], [((['p', '1'], ['b', '1']), []), ((['p', '2'], ['b', '1']), [])], [], []⟩
      ['p', '1'] ['b', '1']).2.2.2.1 ['p', '2'] ['b', '1'] (by decide)).1⟩

/-! ### Region retry (`list_objects` network path, lines 108-205) -/

/-- Result of mapping one `ListObjectsV2` response (lines 207-224). -/
structure NetListOutput where
  objects : List S3Object
  common_prefixes : List Key
  next_continuation_token : Option Key
  is_truncated : Bool
deriving DecidableEq

/-- Network oracle: outcome of `list_objects_v2` per client and bucket,
and of the `get_bucket_location` region lookup per client and bucket.
Errors carry their message strings. -/
structure S3Net where
  listCall : Client → Key → Except Key NetListOutput
  regionLookup : Client → Key → Except Key Key

/-- Client used for the initial call (lines 108-121): the cached bucket
region, else the caller's hint, else the profile default. -/
def initialClient (m : S3ClientManager) (profile : Profile) (bucket : Key)
    (bucket_region : Option Key) : Client × S3ClientManager :=
  match (get_bucket_region m bucket).or bucket_region with
  | some r => get_client_for_region m profile r
  | none => get_client m profile

/-- Model of the network path of `list_objects` (lines 108-205), taken
on a cache miss: issue the call with the initial client; on failure,
look the bucket's region up with the profile-default client
(lines 145-167); when that succeeds, build a client for the discovered
region, cache the region (lines 169-197) and retry exactly once — a
retry failure is wrapped as `"Retry failed: .."` (line 200), while a
lookup failure surfaces the original error (line 202).  Returns the
call result, the updated manager, and whether the region lookup was
invoked. -/
def list_objects_network (m : S3ClientManager) (net : S3Net) (profile : Profile)
    (bucket : Key) (bucket_region : Option Key) :
    Except Key NetListOutput × S3ClientManager × Bool :=
  let cm := initialClient m profile bucket bucket_region
  match net.listCall cm.1 bucket with
  | .ok out => (.ok out, cm.2, false)
  | .error err =>
      let rcm := get_client cm.2 profile
      match net.regionLookup rcm.1 bucket with
      | .ok region =>
          let ncm := get_client_for_region rcm.2 profile region
          let m4 := set_bucket_region ncm.2 bucket region
          match net.listCall ncm.1 bucket with
          | .ok out => (.ok out, m4, true)
          | .error e2 => (.error ("Retry failed: ".toList ++ e2), m4, true)
      | .error _ => (.error err, rcm.2, true)

theorem get_bucket_region_set (m : S3ClientManager) (bucket region : Key) :
    get_bucket_region (set_bucket_region m bucket region) bucket = some region := by
  unfold get_bucket_region set_bucket_region
  rw [alookup_aupsert, if_pos rfl]

/-! ### Claim C4 -/

/-- C4's counterexample: when the initial call fails with error `"A"`,
region discovery succeeds, and the retry fails with error `"B"`, the
surfaced error is `"Retry failed: B"` — a wrapping of the retry's
error, in which the original error `"A"` does not occur at all. -/
theorem c4_counterexample :
    (list_objects_network S3ClientManager.new
        ⟨fun c _ => if c = (['p'], "eu-west-1".toList) then .error ['B'] else .error ['A'],
         fun _ _ => .ok ("eu-west-1".toList)⟩
        ⟨['p'], none⟩ ['b'] none).1
      = .error ("Retry failed: ".toList ++ ['B'])
    ∧ ¬((['A'] : Key) <:+: ("Retry failed: ".toList ++ ['B'])) := by
  constructor
  · rfl
  · decide

/-- C4, corrected (see `c4_counterexample`): on an initial-call failure
the region lookup is issued with the profile-default client; a
discovered region is cached before the retry (so it remains cached even
if the retry fails, and a later call that finds the cached region and
succeeds never invokes the lookup); the original call is retried
exactly once with a client for the discovered region; a lookup failure
surfaces the original error unchanged; but a retry failure surfaces
`"Retry failed: <retry error>"` — a wrapping of the retry's error, not
of the original one; and a successful overall result is always the
value of one of the two network calls (never an invented empty
success). -/
theorem c4_region_retry (m : S3ClientManager) (net : S3Net) (profile : Profile)
    (bucket : Key) (breg : Option Key) :
    (∀ out, net.listCall (initialClient m profile bucket breg).1 bucket = .ok out →
        list_objects_network m net profile bucket breg
          = (.ok out, (initialClient m profile bucket breg).2, false))
    ∧ (∀ err, net.listCall (initialClient m profile bucket breg).1 bucket = .error err →
        (list_objects_network m net profile bucket breg).2.2 = true
        ∧ (∀ region,
            net.regionLookup
                (get_client (initialClient m profile bucket breg).2 profile).1 bucket
              = .ok region →
            get_bucket_region (list_objects_network m net profile bucket breg).2.1 bucket
                = some region
            ∧ (∀ out2,
                net.listCall
                    (get_client_for_region
                      (get_client (initialClient m profile bucket breg).2 profile).2
                      profile region).1 bucket = .ok out2 →
                (list_objects_network m net profile bucket breg).1 = .ok out2)
            ∧ (∀ e2,
                net.listCall
                    (get_client_for_region
                      (get_client (initialClient m profile bucket breg).2 profile).2
                      profile region).1 bucket = .error e2 →
                (list_objects_network m net profile bucket breg).1
                  = .error ("Retry failed: ".toList ++ e2)))
        ∧ (∀ e3,
            net.regionLookup
                (get_client (initialClient m profile bucket breg).2 profile).1 bucket
              = .error e3 →
            (list_objects_network m net profile bucket breg).1 = .error err))
    ∧ (∀ out, (list_objects_network m net profile bucket breg).1 = .ok out →
        net.listCall (initialClient m profile bucket breg).1 bucket = .ok out
        ∨ ∃ region,
            net.listCall
                (get_client_for_region
                  (get_client (initialClient m profile bucket breg).2 profile).2
                  profile region).1 bucket = .ok out)
    ∧ (∀ r out, get_bucket_region m bucket = some r →
        net.listCall (get_client_for_region m profile r).1 bucket = .ok out →
        (list_objects_network m net profile bucket breg).2.2 = false) := by
  refine ⟨?_, ?_, ?_, ?_⟩
  · intro out hok
    unfold list_objects_network
    dsimp only
    rw [hok]
  · intro err herr
    unfold list_objects_network
    dsimp only
    rw [herr]
    refine ⟨?_, ?_, ?_⟩
    · cases hlook : net.regionLookup
          (get_client (initialClient m profile bucket breg).2 profile).1 bucket with
      | error e3 => rfl
      | ok region =>
          dsimp only
          cases net.listCall
              (get_client_for_region
                (get_client (initialClient m profile bucket breg).2 profile).2
                profile region).1 bucket <;> rfl
    · intro region hlook
      rw [hlook]
      dsimp only
      refine ⟨?_, ?_, ?_⟩
      · cases hretry : net.listCall
            (get_client_for_region
              (get_client (initialClient m profile bucket breg).2 profile).2
              profile region).1 bucket with
        | ok out2 => exact get_bucket_region_set _ bucket region
        | error e2 => exact get_bucket_region_set _ bucket region
      · intro out2 hretry
        rw [hretry]
      · intro e2 hretry
        rw [hretry]
    · intro e3 hlook
      rw [hlook]
  · intro out hok
    unfold list_objects_network at hok
    dsimp only at hok
    cases h1 : net.listCall (initialClient m profile bucket breg).1 bucket with
    | ok out1 =>
        rw [h1] at hok
        dsimp only at hok
        cases hok
        exact Or.inl rfl
    | error err =>
        rw [h1] at hok
        dsimp only at hok
        cases h2 : net.regionLookup
            (get_client (initialClient m profile bucket breg).2 profile).1 bucket with
        | error e3 =>
            rw [h2] at hok
            dsimp only at hok
            cases hok
        | ok region =>
            rw [h2] at hok
            dsimp only at hok
            cases h3 : net.listCall
                (get_client_for_region
                  (get_client (initialClient m profile bucket breg).2 profile).2
                  profile region).1 bucket with
            | ok out2 =>
                rw [h3] at hok
                dsimp only at hok
                cases hok
                exact Or.inr ⟨region, h3⟩
            | error e2 =>
                rw [h3] at hok
                dsimp only at hok
                cases hok
  · intro r out hr hok
    unfold list_objects_network
    dsimp only
    have hinit : initialClient m profile bucket breg = get_client_for_region m profile r := by
      unfold initialClient
      rw [hr]
      rfl
    rw [hinit, hok]

/-- C4's witness: a failing first call, a successful region lookup and
a successful retry yield the retried call's result and leave the region
cached. -/
theorem c4_region_retry_witness :
    (let net : S3Net :=
      ⟨fun c _ => if c = (['p'], "eu-west-1".toList) then .ok ⟨[], [], none, false⟩
                  else .error ['A'],
       fun _ _ => .ok ("eu-west-1".toList)⟩
     net.listCall (initialClient S3ClientManager.new ⟨['p'], none⟩ ['b'] none).1 ['b']
        = .error ['A']
     ∧ get_bucket_region
        (list_objects_network S3ClientManager.new net ⟨['p'], none⟩ ['b'] none).2.1 ['b']
        = some ("eu-west-1".toList)) :=
  ⟨rfl,
   (((c4_region_retry S3ClientManager.new
        ⟨fun c _ => if c = (['p'], "eu-west-1".toList) then .ok ⟨[], [], none, false⟩
                    else .error ['A'],
         fun _ _ => .ok ("eu-west-1".toList)⟩
        ⟨['p'], none⟩ ['b'] none).2.1 ['A'] rfl).2.1
      ("eu-west-1".toList) rfl).1⟩

/-! ### Transfer jobs and the job store
(`src/transfer/mod.rs`, `src/transfer/manager.rs`) -/

/-- Model of `TransferType`. -/
inductive TransferType where
  | upload
  | download
deriving DecidableEq

/-- Model of `TransferStatus` (`Failed` carries its reason string). -/
inductive TransferStatus where
  | pending
  | inProgress
  | completed
  | failed (reason : Key)
  | paused
  | cancelled
deriving DecidableEq

/-- Model of `TransferJob`.  `manager.rs` also reads and writes a
`finished_at` timestamp on terminal transitions, so it is included
here. -/
structure TransferJob where
  id : Key
  bucket : Key
  bucket_region : Option Key
  key : Key
  local_path : Key
  transfer_type : TransferType
  status : TransferStatus
  total_bytes : Nat
  processed_bytes : Nat
  created_at : Int
  parent_group_id : Option Key
  group_name : Option Key
  is_group_root : Bool
  finished_at : Option Int
deriving DecidableEq

/-- Model of `TransferJob::new` (`mod.rs` lines 52-76).  The freshly
drawn UUID and the current timestamp are environment inputs, passed as
the `id` and `now` arguments. -/
def TransferJob.new (transfer_type : TransferType) (bucket : Key) (bucket_region : Option Key)
    (key : Key) (local_path : Key) (total_bytes : Nat) (id : Key) (now : Int) : TransferJob :=
  ⟨id, bucket, bucket_region, key, local_path, transfer_type, .pending, total_bytes, 0, now,
   none, none, false, none⟩

/-- The job table and the FIFO queue of job ids — the mutable state of
`TransferManager` relevant to the store operations (abort handles and
the event sink carry no job state). -/
structure TMState where
  jobs : List (Key × TransferJob)
  queue : List Key
deriving DecidableEq

/-- Model of `matches!(job.status, Pending | InProgress)` used by
`clear_completed` (line 108). -/
def isActive : TransferStatus → Bool
  | .pending | .inProgress => true
  | _ => false

/-- Model of `add_job` (lines 39-55): insert the record and enqueue the
id (event emission carries no state). -/
def add_job (s : TMState) (j : TransferJob) : TMState :=
  ⟨aupsert s.jobs j.id (fun _ => j), s.queue ++ [j.id]⟩

/-- Model of `cancel_job` (lines 70-95): only a `Pending` or
`InProgress` job is cancelled (status set to `Cancelled`), returning
`true`; any other status, or an unknown id, returns `false` and
changes nothing.  The task abort affects no store state. -/
def cancel_job (s : TMState) (id : Key) : Bool × TMState :=
  match alookup s.jobs id with
  | none => (false, s)
  | some j =>
      match j.status with
      | .pending | .inProgress =>
          (true, ⟨aupsert s.jobs id (fun _ => { j with status := .cancelled }), s.queue⟩)
      | _ => (false, s)

/-- Model of `remove_job` (lines 98-101). -/
def remove_job (s : TMState) (id : Key) : Bool × TMState :=
  ((alookup s.jobs id).isSome, ⟨aremove s.jobs id, s.queue⟩)

/-- Model of `clear_completed` (lines 104-111): retain only `Pending`
and `InProgress` jobs and return how many were removed. -/
def clear_completed (s : TMState) : Nat × TMState :=
  let remaining := s.jobs.filter (fun e => isActive e.2.status)
  (s.jobs.length - remaining.length, ⟨remaining, s.queue⟩)

/-- Model of `retry_job` (lines 114-146): a `Failed` or `Cancelled`
job spawns a brand-new `Pending` job (fresh UUID `newId`, timestamp
`now`) carrying over bucket, region, key, path, size and group
metadata, which is added and enqueued; any other status, or an unknown
id, returns `none` and changes nothing. -/
def retry_job (s : TMState) (id : Key) (newId : Key) (now : Int) : Option Key × TMState :=
  match alookup s.jobs id with
  | none => (none, s)
  | some j =>
      match j.status with
      | .failed _ | .cancelled =>
          (some newId,
           add_job s
             { TransferJob.new j.transfer_type j.bucket j.bucket_region j.key j.local_path
                 j.total_bytes newId now with
               parent_group_id := j.parent_group_id,
               group_name := j.group_name,
               is_group_root := j.is_group_root })
      | _ => (none, s)

/-- Model of `update_job_status` (lines 221-238): overwrite the status
unconditionally when the job exists, stamping `finished_at` on terminal
statuses. -/
def update_job_status (s : TMState) (id : Key) (st : TransferStatus) (now : Int) : TMState :=
  match alookup s.jobs id with
  | none => s
  | some j =>
      ⟨aupsert s.jobs id (fun _ =>
          { j with
            status := st,
            finished_at :=
              match st with
              | .completed | .failed _ | .cancelled => some now
              | _ => j.finished_at }),
        s.queue⟩

theorem add_job_lookup_self (s : TMState) (j : TransferJob) :
    alookup (add_job s j).jobs j.id = some j := by
  unfold add_job
  rw [alookup_aupsert, if_pos rfl]

theorem add_job_lookup_ne (s : TMState) (j : TransferJob) (k : Key) (h : j.id ≠ k) :
    alookup (add_job s j).jobs k = alookup s.jobs k := by
  unfold add_job
  rw [alookup_aupsert, if_neg h]

/-! ### Claim C9 -/

/-- C9's counterexample: `clear_completed` removes a `Paused` job
(and counts it) although `Paused` is not one of the terminal statuses
`Completed`, `Failed`, `Cancelled`. -/
theorem c9_counterexample :
    (clear_completed ⟨[(['i'],
        ⟨['i'], ['b'], none, ['k'], ['l'], .upload, .paused, 0, 0, 0, none, none, false,
         none⟩)], []⟩).1 = 1
    ∧ alookup (clear_completed ⟨[(['i'],
        ⟨['i'], ['b'], none, ['k'], ['l'], .upload, .paused, 0, 0, 0, none, none, false,
         none⟩)], []⟩).2.jobs ['i'] = none
    ∧ (TransferStatus.paused ≠ .completed
        ∧ (∀ r, TransferStatus.paused ≠ .failed r)
        ∧ TransferStatus.paused ≠ .cancelled) := by
  refine ⟨by decide, by decide, by decide, ?_, by decide⟩
  intro r h
  exact absurd h (by intro h2; cases h2)

/-- C9, corrected (see `c9_counterexample`): `clear_completed` removes
exactly the jobs whose status is neither `Pending` nor `InProgress` —
the three terminal statuses and the unused `Paused` — and returns the
number removed; on a store holding no `Paused` job the removed set is
exactly the terminal-status jobs, as the claim states. -/
theorem c9_clear_completed (s : TMState) :
    (∀ e, e ∈ (clear_completed s).2.jobs ↔
        e ∈ s.jobs ∧ (e.2.status = .pending ∨ e.2.status = .inProgress))
    ∧ (clear_completed s).1 + (clear_completed s).2.jobs.length = s.jobs.length
    ∧ (clear_completed s).2.queue = s.queue
    ∧ ((∀ e ∈ s.jobs, e.2.status ≠ .paused) →
        ∀ e ∈ s.jobs, (e ∉ (clear_completed s).2.jobs ↔
          (e.2.status = .completed ∨ (∃ r, e.2.status = .failed r)
            ∨ e.2.status = .cancelled))) := by
  refine ⟨?_, ?_, rfl, ?_⟩
  · intro e
    unfold clear_completed
    rw [List.mem_filter]
    constructor
    · rintro ⟨he, hp⟩
      refine ⟨he, ?_⟩
      cases h : e.2.status <;> rw [h] at hp <;> simp [isActive] at hp ⊢
    · rintro ⟨he, hp⟩
      refine ⟨he, ?_⟩
      rcases hp with h | h <;> rw [h] <;> rfl
  · unfold clear_completed
    dsimp only
    have := List.length_filter_le (fun e => isActive e.2.status) s.jobs
    omega
  · intro hnp e he
    unfold clear_completed
    rw [List.mem_filter]
    constructor
    · intro hni
      have hp : isActive e.2.status = false := by
        cases hact : isActive e.2.status
        · rfl
        · exact absurd ⟨he, hact⟩ hni
      cases h : e.2.status with
      | pending => rw [h] at hp; exact absurd hp (by decide)
      | inProgress => rw [h] at hp; exact absurd hp (by decide)
      | completed => exact Or.inl rfl
      | failed r => exact Or.inr (Or.inl ⟨r, rfl⟩)
      | paused => exact absurd h (hnp e he)
      | cancelled => exact Or.inr (Or.inr rfl)
    · rintro (h | ⟨r, h⟩ | h) ⟨-, hact⟩ <;> rw [h] at hact <;> simp [isActive] at hact

/-- C9's witness: on a store with one `Pending` and one `Completed`
job, exactly the completed one is removed. -/
theorem c9_clear_completed_witness :
    ((['x'],
      (⟨['x'], ['b'], none, ['k'], ['l'], .upload, .completed, 0, 0, 0, none, none, false,
        none⟩ : TransferJob))
      ∉ (clear_completed ⟨[(['x'],
          ⟨['x'], ['b'], none, ['k'], ['l'], .upload, .completed, 0, 0, 0, none, none, false,
           none⟩),
         (['y'],
          ⟨['y'], ['b'], none, ['k'], ['l'], .upload, .pending, 0, 0, 0, none, none, false,
           none⟩)], []⟩).2.jobs) :=
  ((c9_clear_completed ⟨[(['x'],
      ⟨['x'], ['b'], none, ['k'], ['l'], .upload, .completed, 0, 0, 0, none, none, false,
       none⟩),
     (['y'],
      ⟨['y'], ['b'], none, ['k'], ['l'], .upload, .pending, 0, 0, 0, none, none, false,
       none⟩)], []⟩).2.2.2 (by decide) _ (by decide)).mpr (Or.inl rfl)

/-! ### Claim C6 -/

/-- C6, confirmed: retrying a `Failed` or `Cancelled` job returns a
fresh id distinct from the source id, naming a new `Pending` job with
zero progress and the source's bucket, region, key, path, size and
group metadata; the source job is unchanged and the new id is
enqueued; retrying a job in any other status returns `none` and
changes nothing.  (Freshness of the UUID is the hypothesis that `newId`
is unused.) -/
theorem c6_retry_job (s : TMState) (id newId : Key) (now : Int) (j : TransferJob)
    (hj : alookup s.jobs id = some j) (_hjid : j.id = id)
    (hfresh : alookup s.jobs newId = none) :
    (((∃ r, j.status = .failed r) ∨ j.status = .cancelled) →
      (retry_job s id newId now).1 = some newId
      ∧ newId ≠ id
      ∧ alookup (retry_job s id newId now).2.jobs newId = some
          { TransferJob.new j.transfer_type j.bucket j.bucket_region j.key j.local_path
              j.total_bytes newId now with
            parent_group_id := j.parent_group_id,
            group_name := j.group_name,
            is_group_root := j.is_group_root }
      ∧ (∀ nj, alookup (retry_job s id newId now).2.jobs newId = some nj →
          nj.status = .pending ∧ nj.processed_bytes = 0 ∧ nj.bucket = j.bucket
          ∧ nj.bucket_region = j.bucket_region ∧ nj.key = j.key
          ∧ nj.local_path = j.local_path ∧ nj.total_bytes = j.total_bytes
          ∧ nj.parent_group_id = j.parent_group_id ∧ nj.group_name = j.group_name
          ∧ nj.is_group_root = j.is_group_root)
      ∧ alookup (retry_job s id newId now).2.jobs id = some j
      ∧ (retry_job s id newId now).2.queue = s.queue ++ [newId])
    ∧ ((∀ r, j.status ≠ .failed r) → j.status ≠ .cancelled →
        retry_job s id newId now = (none, s)) := by
  have hne : newId ≠ id := by
    intro he
    rw [he, hj] at hfresh
    cases hfresh
  constructor
  · intro hst
    have hgo : retry_job s id newId now =
        (some newId,
         add_job s
           { TransferJob.new j.transfer_type j.bucket j.bucket_region j.key j.local_path
               j.total_bytes newId now with
             parent_group_id := j.parent_group_id,
             group_name := j.group_name,
             is_group_root := j.is_group_root }) := by
      unfold retry_job
      rw [hj]
      dsimp only
      rcases hst with ⟨r, hr⟩ | hr <;> rw [hr]
    rw [hgo]
    have hself : alookup
        (add_job s
          { TransferJob.new j.transfer_type j.bucket j.bucket_region j.key j.local_path
              j.total_bytes newId now with
            parent_group_id := j.parent_group_id,
            group_name := j.group_name,
            is_group_root := j.is_group_root }).jobs newId
        = some
          { TransferJob.new j.transfer_type j.bucket j.bucket_region j.key j.local_path
              j.total_bytes newId now with
            parent_group_id := j.parent_group_id,
            group_name := j.group_name,
            is_group_root := j.is_group_root } := add_job_lookup_self s _
    have hother : alookup
        (add_job s
          { TransferJob.new j.transfer_type j.bucket j.bucket_region j.key j.local_path
              j.total_bytes newId now with
            parent_group_id := j.parent_group_id,
            group_name := j.group_name,
            is_group_root := j.is_group_root }).jobs id = alookup s.jobs id :=
      add_job_lookup_ne s _ id hne
    refine ⟨rfl, hne, hself, ?_, ?_, rfl⟩
    · intro nj hnj
      rw [hself] at hnj
      cases hnj
      exact ⟨rfl, rfl, rfl, rfl, rfl, rfl, rfl, rfl, rfl, rfl⟩
    · rw [hother]
      exact hj
  · intro hnf hnc
    unfold retry_job
    rw [hj]
    dsimp only
    cases hs : j.status with
    | failed r => exact absurd hs (hnf r)
    | cancelled => exact absurd hs hnc
    | pending => rfl
    | inProgress => rfl
    | completed => rfl
    | paused => rfl

/-- C6's witness: retrying a concrete failed job produces the new
pending job and leaves the source untouched. -/
theorem c6_retry_job_witness :
    ((retry_job ⟨[(['i'],
        ⟨['i'], ['b'], some ['r'], ['k'], ['l'], .download, .failed ['E'], 9, 3, 0,
         some ['g'], some ['G'], true, some 5⟩)], [['i']]⟩ ['i'] ['n'] 7).1 = some ['n'])
    ∧ (alookup (retry_job ⟨[(['i'],
        ⟨['i'], ['b'], some ['r'], ['k'], ['l'], .download, .failed ['E'], 9, 3, 0,
         some ['g'], some ['G'], true, some 5⟩)], [['i']]⟩ ['i'] ['n'] 7).2.jobs ['i']
        = some ⟨['i'], ['b'], some ['r'], ['k'], ['l'], .download, .failed ['E'], 9, 3, 0,
                some ['g'], some ['G'], true, some 5⟩) :=
  ⟨((c6_retry_job ⟨[(['i'],
      ⟨['i'], ['b'], some ['r'], ['k'], ['l'], .download, .failed ['E'], 9, 3, 0,
       some ['g'], some ['G'], true, some 5⟩)], [['i']]⟩ ['i'] ['n'] 7
      ⟨['i'], ['b'], some ['r'], ['k'], ['l'], .download, .failed ['E'], 9, 3, 0,
       some ['g'], some ['G'], true, some 5⟩ (by decide) rfl (by decide)).1
      (Or.inl ⟨['E'], rfl⟩)).1,
   ((c6_retry_job ⟨[(['i'],
      ⟨['i'], ['b'], some ['r'], ['k'], ['l'], .download, .failed ['E'], 9, 3, 0,
       some ['g'], some ['G'], true, some 5⟩)], [['i']]⟩ ['i'] ['n'] 7
      ⟨['i'], ['b'], some ['r'], ['k'], ['l'], .download, .failed ['E'], 9, 3, 0,
       some ['g'], some ['G'], true, some 5⟩ (by decide) rfl (by decide)).1
      (Or.inl ⟨['E'], rfl⟩)).2.2.2.2.1⟩

/-! ### Further association-list lemmas, for the scheduler trace model -/

theorem alookup_mem_keys {κ α : Type} [DecidableEq κ] (m : List (κ × α)) (k : κ) (v : α)
    (h : alookup m k = some v) : k ∈ m.map Prod.fst := by
  induction m with
  | nil => simp [alookup] at h
  | cons e m ih =>
      obtain ⟨k0, v0⟩ := e
      by_cases h0 : k0 = k
      · subst h0; simp
      · simp only [alookup, if_neg h0] at h
        simp [ih h]

theorem filter_keys_sub {κ α : Type} (m : List (κ × α)) (p : κ × α → Bool) (a : κ)
    (h : a ∈ (m.filter p).map Prod.fst) : a ∈ m.map Prod.fst := by
  simp only [List.mem_map] at h ⊢
  obtain ⟨e, he, rfl⟩ := h
  exact ⟨e, (List.mem_filter.mp he).1, rfl⟩

theorem filter_keys_nodup {κ α : Type} (m : List (κ × α)) (p : κ × α → Bool)
    (h : (m.map Prod.fst).Nodup) : ((m.filter p).map Prod.fst).Nodup :=
  h.sublist (List.Sublist.map _ (List.filter_sublist _))

/-- Looking a key up in a filtered association list with unique keys can
only return the binding the unfiltered list already had. -/
theorem alookup_filter_some {κ α : Type} [DecidableEq κ] (m : List (κ × α))
    (p : κ × α → Bool) (k : κ) (v : α) (hnd : (m.map Prod.fst).Nodup)
    (h : alookup (m.filter p) k = some v) : alookup m k = some v := by
  induction m with
  | nil => simpa using h
  | cons e m ih =>
      obtain ⟨k0, v0⟩ := e
      simp only [List.map_cons, List.nodup_cons] at hnd
      simp only [List.filter_cons] at h

      by_cases hp : p (k0, v0) = true
      · rw [if_pos hp] at h
        by_cases h0 : k0 = k
        · subst h0
          simp only [alookup, if_pos rfl] at h ⊢
          exact h
        · simp only [alookup, if_neg h0] at h ⊢
          exact ih hnd.2 h
      · rw [if_neg hp] at h
        by_cases h0 : k0 = k
        · subst h0
          exact absurd (filter_keys_sub m p k0 (alookup_mem_keys _ _ _ h)) hnd.1
        · simp only [alookup, if_neg h0]
          exact ih hnd.2 h

theorem alookup_aremove {κ α : Type} [DecidableEq κ] (m : List (κ × α)) (k k' : κ) :
    alookup (aremove m k) k' = if k' = k then none else alookup m k' := by
  unfold aremove
  by_cases h : k' = k
  · rw [if_pos h]
    subst h
    exact alookup_filter_of_fails _ _ _ (fun v => by simp)
  · rw [if_neg h]
    exact alookup_filter_of_holds _ _ _ (fun v => by simp [h])

/-- Updating a key that is already bound does not change the key set. -/
theorem aupsert_keys_of_lookup {κ α : Type} [DecidableEq κ] (m : List (κ × α)) (k : κ)
    (f : Option α → α) (v : α) (h : alookup m k = some v) (a : κ) :
    a ∈ (aupsert m k f).map Prod.fst ↔ a ∈ m.map Prod.fst := by
  rw [aupsert_keys_mem]
  constructor
  · intro hk
    rcases hk with hk | hk2
    · exact hk
    · subst hk2
      exact alookup_mem_keys _ _ v h
  · exact Or.inl

/-! ### Per-operation lookup lemmas on the transfer store -/

theorem cancel_job_queue (s : TMState) (id : Key) :
    (cancel_job s id).2.queue = s.queue := by
  unfold cancel_job
  cases alookup s.jobs id with
  | none => rfl
  | some j =>
      dsimp only
      cases j.status <;> rfl

theorem cancel_job_lookup_self (s : TMState) (id : Key) :
    alookup (cancel_job s id).2.jobs id =
      (alookup s.jobs id).map (fun j =>
        match j.status with
        | .pending | .inProgress => { j with status := TransferStatus.cancelled }
        | _ => j) := by
  unfold cancel_job
  cases h : alookup s.jobs id with
  | none => exact h
  | some j =>
      dsimp only
      cases hst : j.status
      case pending =>
        rw [alookup_aupsert, if_pos rfl]
        simp [hst]
      case inProgress =>
        rw [alookup_aupsert, if_pos rfl]
        simp [hst]
      all_goals simp [h, hst]

theorem cancel_job_lookup_ne (s : TMState) (id k : Key) (hne : k ≠ id) :
    alookup (cancel_job s id).2.jobs k = alookup s.jobs k := by
  unfold cancel_job
  cases h : alookup s.jobs id with
  | none => rfl
  | some j =>
      dsimp only
      cases hst : j.status
      case pending =>
        rw [alookup_aupsert, if_neg (fun hh => hne hh.symm)]
      case inProgress =>
        rw [alookup_aupsert, if_neg (fun hh => hne hh.symm)]
      all_goals rfl

theorem cancel_job_keys (s : TMState) (id k : Key) :
    k ∈ (cancel_job s id).2.jobs.map Prod.fst ↔ k ∈ s.jobs.map Prod.fst := by
  unfold cancel_job
  cases h : alookup s.jobs id with
  | none => exact Iff.rfl
  | some j =>
      dsimp only
      cases hst : j.status <;>
        first
          | exact Iff.rfl
          | exact aupsert_keys_of_lookup s.jobs id _ j h k

theorem cancel_job_keys_nodup (s : TMState) (id : Key)
    (h : (s.jobs.map Prod.fst).Nodup) : ((cancel_job s id).2.jobs.map Prod.fst).Nodup := by
  unfold cancel_job
  cases alookup s.jobs id with
  | none => exact h
  | some j =>
      dsimp only
      cases j.status <;> first | exact h | exact aupsert_keys_nodup _ _ _ h

theorem update_job_status_queue (s : TMState) (id : Key) (st : TransferStatus) (now : Int) :
    (update_job_status s id st now).queue = s.queue := by
  unfold update_job_status
  cases alookup s.jobs id <;> rfl

theorem update_job_status_lookup_self (s : TMState) (id : Key) (st : TransferStatus) (now : Int) :
    alookup (update_job_status s id st now).jobs id =
      (alookup s.jobs id).map (fun j =>
        { j with
          status := st,
          finished_at :=
            match st with
            | .completed | .failed _ | .cancelled => some now
            | _ => j.finished_at }) := by
  unfold update_job_status
  cases h : alookup s.jobs id with
  | none => exact h
  | some j =>
      dsimp only
      rw [alookup_aupsert, if_pos rfl]
      rfl

theorem update_job_status_lookup_ne (s : TMState) (id k : Key) (st : TransferStatus) (now : Int)
    (hne : k ≠ id) :
    alookup (update_job_status s id st now).jobs k = alookup s.jobs k := by
  unfold update_job_status
  cases h : alookup s.jobs id with
  | none => rfl
  | some j =>
      dsimp only
      rw [alookup_aupsert, if_neg (fun hh => hne hh.symm)]

theorem update_job_status_keys (s : TMState) (id : Key) (st : TransferStatus) (now : Int)
    (k : Key) :
    k ∈ (update_job_status s id st now).jobs.map Prod.fst ↔ k ∈ s.jobs.map Prod.fst := by
  unfold update_job_status
  cases h : alookup s.jobs id with
  | none => exact Iff.rfl
  | some j =>
      dsimp only
      exact aupsert_keys_of_lookup s.jobs id _ j h k

theorem update_job_status_keys_nodup (s : TMState) (id : Key) (st : TransferStatus) (now : Int)
    (h : (s.jobs.map Prod.fst).Nodup) :
    ((update_job_status s id st now).jobs.map Prod.fst).Nodup := by
  unfold update_job_status
  cases alookup s.jobs id with
  | none => exact h
  | some j => exact aupsert_keys_nodup _ _ _ h

/-! ### The scheduler trace model

The status of a transfer job evolves under an arbitrary interleaving of
the `TransferManager` entry points and the two halves of the worker
spawned by `process_queue` (lines 162-219).  A trace state records the
store, the set of ids popped from the queue whose worker task has not
yet finished (`dispatched` — the ids holding an abort handle), and
every id ever handed out (`used` — UUIDs are never reissued). -/

structure SchedState where
  tm : TMState
  dispatched : List Key
  used : List Key
deriving DecidableEq

/-- One atomic scheduler or store step.  `add`, `cancel`, `retry`,
`removeJob` and `clearDone` are the manager entry points; `dispatch` is
the loop body of `process_queue` popping the queue head and setting it
`InProgress` (lines 168-188); `execOk` is the `Ok` branch of the worker
(lines 194-201: skip the `Completed` write when the job was cancelled
meanwhile); `execErr` is its `Err` branch (line 202: write `Failed`
unconditionally).  Each worker runs exactly once per dispatched id, and
`TransferJob::new` draws a UUID, so fresh ids are side conditions. -/
inductive SchedOp where
  | add (j : TransferJob)
  | cancel (id : Key)
  | retry (id newId : Key) (now : Int)
  | removeJob (id : Key)
  | clearDone
  | dispatch (now : Int)
  | execOk (id : Key) (now : Int)
  | execErr (id : Key) (msg : Key) (now : Int)
deriving DecidableEq

/-- The transition function of the trace model.  The `Ok`-branch
double-check and its `Completed` write (lines 196-200) are modelled as
one atomic step; `Err` writes `Failed` with no such check.  Finishing a
worker removes its abort handle (lines 206-208), modelled by erasing
the id from `dispatched`. -/
def applyOp (s : SchedState) : SchedOp → SchedState
  | .add j =>
      if j.status = TransferStatus.pending ∧ j.id ∉ s.used then
        ⟨add_job s.tm j, s.dispatched, s.used ++ [j.id]⟩
      else s
  | .cancel id => ⟨(cancel_job s.tm id).2, s.dispatched, s.used⟩
  | .retry id newId now =>
      if newId ∉ s.used then
        match retry_job s.tm id newId now with
        | (none, tm2) => ⟨tm2, s.dispatched, s.used⟩
        | (some _, tm2) => ⟨tm2, s.dispatched, s.used ++ [newId]⟩
      else s
  | .removeJob id => ⟨(remove_job s.tm id).2, s.dispatched, s.used⟩
  | .clearDone => ⟨(clear_completed s.tm).2, s.dispatched, s.used⟩
  | .dispatch now =>
      match s.tm.queue with
      | [] => s
      | id :: rest =>
          ⟨update_job_status ⟨s.tm.jobs, rest⟩ id TransferStatus.inProgress now,
           s.dispatched ++ [id], s.used⟩
  | .execOk id now =>
      if id ∈ s.dispatched then
        match alookup s.tm.jobs id with
        | none => ⟨s.tm, s.dispatched.erase id, s.used⟩
        | some j =>
            if j.status = TransferStatus.cancelled then ⟨s.tm, s.dispatched.erase id, s.used⟩
            else ⟨update_job_status s.tm id TransferStatus.completed now,
                  s.dispatched.erase id, s.used⟩
      else s
  | .execErr id msg now =>
      if id ∈ s.dispatched then
        ⟨update_job_status s.tm id (TransferStatus.failed msg) now,
         s.dispatched.erase id, s.used⟩
      else s

/-- The empty initial state: fresh manager, no worker, no id issued. -/
def initSched : SchedState := ⟨⟨[], []⟩, [], []⟩

/-- Run a list of steps from a given state. -/
def runOpsFrom (s : SchedState) (ops : List SchedOp) : SchedState := ops.foldl applyOp s

/-- Run a list of steps from the initial state. -/
def runOps (ops : List SchedOp) : SchedState := runOpsFrom initSched ops

/-! ### Instantiated forms of the lookup lemmas -/

theorem cancel_job_lookup_active (s : TMState) (id : Key) (j : TransferJob)
    (hl : alookup s.jobs id = some j)
    (hact : j.status = TransferStatus.pending ∨ j.status = TransferStatus.inProgress) :
    alookup (cancel_job s id).2.jobs id = some { j with status := TransferStatus.cancelled } := by
  rw [cancel_job_lookup_self, hl]
  rcases hact with h | h <;> simp [h]

theorem cancel_job_lookup_inactive (s : TMState) (id : Key) (j : TransferJob)
    (hl : alookup s.jobs id = some j)
    (hp : j.status ≠ TransferStatus.pending) (hi : j.status ≠ TransferStatus.inProgress) :
    alookup (cancel_job s id).2.jobs id = some j := by
  rw [cancel_job_lookup_self, hl]
  cases h : j.status
  case pending => exact absurd h hp
  case inProgress => exact absurd h hi
  all_goals simp [h]

theorem cancel_job_lookup_none (s : TMState) (id : Key)
    (hl : alookup s.jobs id = none) :
    alookup (cancel_job s id).2.jobs id = none := by
  rw [cancel_job_lookup_self, hl]
  rfl

theorem update_job_status_lookup_some (s : TMState) (id : Key) (st : TransferStatus) (now : Int)
    (j : TransferJob) (hl : alookup s.jobs id = some j) :
    alookup (update_job_status s id st now).jobs id =
      some { j with
             status := st,
             finished_at :=
               match st with
               | .completed | .failed _ | .cancelled => some now
               | _ => j.finished_at } := by
  rw [update_job_status_lookup_self, hl]
  rfl

theorem update_job_status_lookup_none (s : TMState) (id : Key) (st : TransferStatus) (now : Int)
    (hl : alookup s.jobs id = none) :
    alookup (update_job_status s id st now).jobs id = none := by
  rw [update_job_status_lookup_self, hl]
  rfl

/-! ### The scheduler invariant -/

/-- Invariant of every reachable scheduler state: every id appearing
anywhere was issued at some point; the job table, the queue and the
in-flight set are duplicate-free; no id is simultaneously queued and
in flight; a queued job is `Pending` (or `Cancelled`, because
`cancel_job` does not dequeue); and an in-flight job is `InProgress`
(or, likewise, `Cancelled`). -/
structure SchedInv (s : SchedState) : Prop where
  keys_used : ∀ k, k ∈ s.tm.jobs.map Prod.fst → k ∈ s.used
  queue_used : ∀ k, k ∈ s.tm.queue → k ∈ s.used
  disp_used : ∀ k, k ∈ s.dispatched → k ∈ s.used
  keys_nodup : (s.tm.jobs.map Prod.fst).Nodup
  queue_nodup : s.tm.queue.Nodup
  disp_nodup : s.dispatched.Nodup
  queue_disp : ∀ k, k ∈ s.tm.queue → k ∉ s.dispatched
  queue_status : ∀ k, k ∈ s.tm.queue → ∀ j, alookup s.tm.jobs k = some j →
    j.status = TransferStatus.pending ∨ j.status = TransferStatus.cancelled
  disp_status : ∀ k, k ∈ s.dispatched → ∀ j, alookup s.tm.jobs k = some j →
    j.status = TransferStatus.inProgress ∨ j.status = TransferStatus.cancelled

/-- Adding a fresh pending job preserves the invariant (used for both
`add` and the enqueue half of `retry`). -/
theorem sched_add_aux (s : SchedState) (j : TransferJob)
    (hp : j.status = TransferStatus.pending) (hf : j.id ∉ s.used) (hinv : SchedInv s) :
    SchedInv ⟨add_job s.tm j, s.dispatched, s.used ++ [j.id]⟩ := by
  refine ⟨?_, ?_, ?_, ?_, ?_, ?_, ?_, ?_, ?_⟩ <;> dsimp only [add_job]
  · intro k hk
    rw [aupsert_keys_mem] at hk
    rcases hk with hk | hk
    · exact List.mem_append_left _ (hinv.keys_used k hk)
    · subst hk
      exact List.mem_append_right _ (by simp)
  · intro k hk
    rcases List.mem_append.mp hk with h2 | h2
    · exact List.mem_append_left _ (hinv.queue_used k h2)
    · exact List.mem_append_right _ h2
  · intro k hk
    exact List.mem_append_left _ (hinv.disp_used k hk)
  · exact aupsert_keys_nodup _ _ _ hinv.keys_nodup
  · have hq : j.id ∉ s.tm.queue := fun hmem => hf (hinv.queue_used _ hmem)
    simp [List.nodup_append, hinv.queue_nodup, hq]
  · exact hinv.disp_nodup
  · intro k hk
    rcases List.mem_append.mp hk with h2 | h2
    · exact hinv.queue_disp k h2
    · simp only [List.mem_singleton] at h2
      subst h2
      intro hd
      exact hf (hinv.disp_used _ hd)
  · intro k hk jj hjj
    rw [alookup_aupsert] at hjj
    by_cases hkj : j.id = k
    · rw [if_pos hkj] at hjj
      injection hjj with hh
      subst hh
      exact Or.inl hp
    · rw [if_neg hkj] at hjj
      rcases List.mem_append.mp hk with h2 | h2
      · exact hinv.queue_status k h2 jj hjj
      · simp only [List.mem_singleton] at h2
        exact absurd h2.symm hkj
  · intro k hk jj hjj
    rw [alookup_aupsert] at hjj
    by_cases hkj : j.id = k
    · subst hkj
      exact absurd (hinv.disp_used _ hk) hf
    · rw [if_neg hkj] at hjj
      exact hinv.disp_status k hk jj hjj

/-- Erasing an id from the in-flight set preserves the invariant. -/
theorem sched_erase_aux (s : SchedState) (id : Key) (hinv : SchedInv s) :
    SchedInv ⟨s.tm, s.dispatched.erase id, s.used⟩ := by
  refine ⟨hinv.keys_used, hinv.queue_used, ?_, hinv.keys_nodup, hinv.queue_nodup, ?_, ?_,
    hinv.queue_status, ?_⟩
  · intro k hk
    exact hinv.disp_used k (List.mem_of_mem_erase hk)
  · exact hinv.disp_nodup.erase id
  · intro k hk hmem
    exact hinv.queue_disp k hk (List.mem_of_mem_erase hmem)
  · intro k hk jj hjj
    exact hinv.disp_status k (List.mem_of_mem_erase hk) jj hjj

/-- Every scheduler step preserves the invariant. -/
theorem schedInv_applyOp (s : SchedState) (op : SchedOp) (hinv : SchedInv s) :
    SchedInv (applyOp s op) := by
  cases op with
  | add j =>
      simp only [applyOp]
      split_ifs with hg
      · exact sched_add_aux s j hg.1 hg.2 hinv
      · exact hinv
  | cancel id =>
      simp only [applyOp]
      refine ⟨?_, ?_, ?_, ?_, ?_, ?_, ?_, ?_, ?_⟩ <;> dsimp only
      · intro k hk
        exact hinv.keys_used k ((cancel_job_keys s.tm id k).mp hk)
      · intro k hk
        rw [cancel_job_queue] at hk
        exact hinv.queue_used k hk
      · exact hinv.disp_used
      · exact cancel_job_keys_nodup s.tm id hinv.keys_nodup
      · rw [cancel_job_queue]
        exact hinv.queue_nodup
      · exact hinv.disp_nodup
      · intro k hk
        rw [cancel_job_queue] at hk
        exact hinv.queue_disp k hk
      · intro k hk jj hjj
        rw [cancel_job_queue] at hk
        by_cases hkid : k = id
        · subst hkid
          cases hl : alookup s.tm.jobs k with
          | none =>
              rw [cancel_job_lookup_none s.tm k hl] at hjj
              simp at hjj
          | some j0 =>
              rcases hinv.queue_status k hk j0 hl with hst | hst
              · rw [cancel_job_lookup_active s.tm k j0 hl (Or.inl hst)] at hjj
                injection hjj with hh
                subst hh
                exact Or.inr rfl
              · rw [cancel_job_lookup_inactive s.tm k j0 hl (by simp [hst]) (by simp [hst])]
                  at hjj
                injection hjj with hh
                subst hh
                exact Or.inr hst
        · rw [cancel_job_lookup_ne s.tm id k hkid] at hjj
          exact hinv.queue_status k hk jj hjj
      · intro k hk jj hjj
        by_cases hkid : k = id
        · subst hkid
          cases hl : alookup s.tm.jobs k with
          | none =>
              rw [cancel_job_lookup_none s.tm k hl] at hjj
              simp at hjj
          | some j0 =>
              rcases hinv.disp_status k hk j0 hl with hst | hst
              · rw [cancel_job_lookup_active s.tm k j0 hl (Or.inr hst)] at hjj
                injection hjj with hh
                subst hh
                exact Or.inr rfl
              · rw [cancel_job_lookup_inactive s.tm k j0 hl (by simp [hst]) (by simp [hst])]
                  at hjj
                injection hjj with hh
                subst hh
                exact Or.inr hst
        · rw [cancel_job_lookup_ne s.tm id k hkid] at hjj
          exact hinv.disp_status k hk jj hjj
  | retry id newId now =>
      simp only [applyOp]
      by_cases hg : newId ∉ s.used
      case neg =>
        rw [if_neg hg]
        exact hinv
      rw [if_pos hg]
      · cases hl : alookup s.tm.jobs id with
        | none =>
            have h2 : retry_job s.tm id newId now = (none, s.tm) := by
              unfold retry_job
              rw [hl]
            rw [h2]
            exact hinv
        | some j0 =>
            cases hst : j0.status with
            | failed r =>
                have h2 : retry_job s.tm id newId now =
                    (some newId, add_job s.tm
                      { TransferJob.new j0.transfer_type j0.bucket j0.bucket_region j0.key
                          j0.local_path j0.total_bytes newId now with
                        parent_group_id := j0.parent_group_id,
                        group_name := j0.group_name,
                        is_group_root := j0.is_group_root }) := by
                  unfold retry_job
                  rw [hl]
                  dsimp only
                  rw [hst]
                rw [h2]
                exact sched_add_aux s _ rfl hg hinv
            | cancelled =>
                have h2 : retry_job s.tm id newId now =
                    (some newId, add_job s.tm
                      { TransferJob.new j0.transfer_type j0.bucket j0.bucket_region j0.key
                          j0.local_path j0.total_bytes newId now with
                        parent_group_id := j0.parent_group_id,
                        group_name := j0.group_name,
                        is_group_root := j0.is_group_root }) := by
                  unfold retry_job
                  rw [hl]
                  dsimp only
                  rw [hst]
                rw [h2]
                exact sched_add_aux s _ rfl hg hinv
            | pending =>
                have h2 : retry_job s.tm id newId now = (none, s.tm) := by
                  unfold retry_job
                  rw [hl]
                  dsimp only
                  rw [hst]
                rw [h2]
                exact hinv
            | inProgress =>
                have h2 : retry_job s.tm id newId now = (none, s.tm) := by
                  unfold retry_job
                  rw [hl]
                  dsimp only
                  rw [hst]
                rw [h2]
                exact hinv
            | completed =>
                have h2 : retry_job s.tm id newId now = (none, s.tm) := by
                  unfold retry_job
                  rw [hl]
                  dsimp only
                  rw [hst]
                rw [h2]
                exact hinv
            | paused =>
                have h2 : retry_job s.tm id newId now = (none, s.tm) := by
                  unfold retry_job
                  rw [hl]
                  dsimp only
                  rw [hst]
                rw [h2]
                exact hinv
  | removeJob id =>
      simp only [applyOp]
      refine ⟨?_, ?_, ?_, ?_, ?_, ?_, ?_, ?_, ?_⟩ <;> dsimp only [remove_job]
      · intro k hk
        exact hinv.keys_used k (filter_keys_sub _ _ k hk)
      · exact hinv.queue_used
      · exact hinv.disp_used
      · exact filter_keys_nodup _ _ hinv.keys_nodup
      · exact hinv.queue_nodup
      · exact hinv.disp_nodup
      · exact hinv.queue_disp
      · intro k hk jj hjj
        rw [alookup_aremove] at hjj
        by_cases hkid : k = id
        · rw [if_pos hkid] at hjj
          simp at hjj
        · rw [if_neg hkid] at hjj
          exact hinv.queue_status k hk jj hjj
      · intro k hk jj hjj
        rw [alookup_aremove] at hjj
        by_cases hkid : k = id
        · rw [if_pos hkid] at hjj
          simp at hjj
        · rw [if_neg hkid] at hjj
          exact hinv.disp_status k hk jj hjj
  | clearDone =>
      simp only [applyOp]
      refine ⟨?_, ?_, ?_, ?_, ?_, ?_, ?_, ?_, ?_⟩ <;> dsimp only [clear_completed]
      · intro k hk
        exact hinv.keys_used k (filter_keys_sub _ _ k hk)
      · exact hinv.queue_used
      · exact hinv.disp_used
      · exact filter_keys_nodup _ _ hinv.keys_nodup
      · exact hinv.queue_nodup
      · exact hinv.disp_nodup
      · exact hinv.queue_disp
      · intro k hk jj hjj
        exact hinv.queue_status k hk jj (alookup_filter_some _ _ k jj hinv.keys_nodup hjj)
      · intro k hk jj hjj
        exact hinv.disp_status k hk jj (alookup_filter_some _ _ k jj hinv.keys_nodup hjj)
  | dispatch now =>
      simp only [applyOp]
      cases hq : s.tm.queue with
      | nil => exact hinv
      | cons id0 rest =>
          have hid0q : id0 ∈ s.tm.queue := by rw [hq]; simp
          have hrestq : ∀ k, k ∈ rest → k ∈ s.tm.queue := by
            intro k hk
            rw [hq]
            simp [hk]
          have hid0rest : id0 ∉ rest := by
            have h0 := hinv.queue_nodup
            rw [hq] at h0
            exact (List.nodup_cons.mp h0).1
          have hid0disp : id0 ∉ s.dispatched := hinv.queue_disp id0 hid0q
          refine ⟨?_, ?_, ?_, ?_, ?_, ?_, ?_, ?_, ?_⟩ <;> dsimp only
          · intro k hk
            rw [update_job_status_keys] at hk
            exact hinv.keys_used k hk
          · intro k hk
            rw [update_job_status_queue] at hk
            exact hinv.queue_used k (hrestq k hk)
          · intro k hk
            rcases List.mem_append.mp hk with h2 | h2
            · exact hinv.disp_used k h2
            · simp only [List.mem_singleton] at h2
              subst h2
              exact hinv.queue_used k hid0q
          · exact update_job_status_keys_nodup _ _ _ _ hinv.keys_nodup
          · rw [update_job_status_queue]
            have h0 := hinv.queue_nodup
            rw [hq] at h0
            exact (List.nodup_cons.mp h0).2
          · simp [List.nodup_append, hinv.disp_nodup, hid0disp]
          · intro k hk
            rw [update_job_status_queue] at hk
            intro hmem
            rcases List.mem_append.mp hmem with h2 | h2
            · exact hinv.queue_disp k (hrestq k hk) h2
            · simp only [List.mem_singleton] at h2
              subst h2
              exact hid0rest hk
          · intro k hk jj hjj
            rw [update_job_status_queue] at hk
            have hkne : k ≠ id0 := fun he => hid0rest (he ▸ hk)
            rw [update_job_status_lookup_ne ⟨s.tm.jobs, rest⟩ id0 k
              TransferStatus.inProgress now hkne] at hjj
            exact hinv.queue_status k (hrestq k hk) jj hjj
          · intro k hk jj hjj
            rcases List.mem_append.mp hk with h2 | h2
            · have hkne : k ≠ id0 := fun he => hid0disp (he ▸ h2)
              rw [update_job_status_lookup_ne ⟨s.tm.jobs, rest⟩ id0 k
                TransferStatus.inProgress now hkne] at hjj
              exact hinv.disp_status k h2 jj hjj
            · simp only [List.mem_singleton] at h2
              subst h2
              cases hl : alookup s.tm.jobs k with
              | none =>
                  rw [update_job_status_lookup_none ⟨s.tm.jobs, rest⟩ k
                    TransferStatus.inProgress now hl] at hjj
                  simp at hjj
              | some j0 =>
                  rw [update_job_status_lookup_some ⟨s.tm.jobs, rest⟩ k
                    TransferStatus.inProgress now j0 hl] at hjj
                  injection hjj with hh
                  subst hh
                  exact Or.inl rfl
  | execOk id now =>
      simp only [applyOp]
      split_ifs with hd
      · cases hl : alookup s.tm.jobs id with
        | none => exact sched_erase_aux s id hinv
        | some j =>
            dsimp only
            by_cases hc : j.status = TransferStatus.cancelled
            · rw [if_pos hc]
              exact sched_erase_aux s id hinv
            · rw [if_neg hc]
              refine ⟨?_, ?_, ?_, ?_, ?_, ?_, ?_, ?_, ?_⟩ <;> dsimp only
              · intro k hk
                rw [update_job_status_keys] at hk
                exact hinv.keys_used k hk
              · intro k hk
                rw [update_job_status_queue] at hk
                exact hinv.queue_used k hk
              · intro k hk
                exact hinv.disp_used k (List.mem_of_mem_erase hk)
              · exact update_job_status_keys_nodup _ _ _ _ hinv.keys_nodup
              · rw [update_job_status_queue]
                exact hinv.queue_nodup
              · exact hinv.disp_nodup.erase id
              · intro k hk hmem
                rw [update_job_status_queue] at hk
                exact hinv.queue_disp k hk (List.mem_of_mem_erase hmem)
              · intro k hk jj hjj
                rw [update_job_status_queue] at hk
                have hkne : k ≠ id := fun he => hinv.queue_disp k hk (he ▸ hd)
                rw [update_job_status_lookup_ne s.tm id k
                  TransferStatus.completed now hkne] at hjj
                exact hinv.queue_status k hk jj hjj
              · intro k hk jj hjj
                have hkne : k ≠ id := (hinv.disp_nodup.mem_erase_iff.mp hk).1
                rw [update_job_status_lookup_ne s.tm id k
                  TransferStatus.completed now hkne] at hjj
                exact hinv.disp_status k (List.mem_of_mem_erase hk) jj hjj
      · exact hinv
  | execErr id msg now =>
      simp only [applyOp]
      split_ifs with hd
      · refine ⟨?_, ?_, ?_, ?_, ?_, ?_, ?_, ?_, ?_⟩ <;> dsimp only
        · intro k hk
          rw [update_job_status_keys] at hk
          exact hinv.keys_used k hk
        · intro k hk
          rw [update_job_status_queue] at hk
          exact hinv.queue_used k hk
        · intro k hk
          exact hinv.disp_used k (List.mem_of_mem_erase hk)
        · exact update_job_status_keys_nodup _ _ _ _ hinv.keys_nodup
        · rw [update_job_status_queue]
          exact hinv.queue_nodup
        · exact hinv.disp_nodup.erase id
        · intro k hk hmem
          rw [update_job_status_queue] at hk
          exact hinv.queue_disp k hk (List.mem_of_mem_erase hmem)
        · intro k hk jj hjj
          rw [update_job_status_queue] at hk
          have hkne : k ≠ id := fun he => hinv.queue_disp k hk (he ▸ hd)
          rw [update_job_status_lookup_ne s.tm id k
            (TransferStatus.failed msg) now hkne] at hjj
          exact hinv.queue_status k hk jj hjj
        · intro k hk jj hjj
          have hkne : k ≠ id := (hinv.disp_nodup.mem_erase_iff.mp hk).1
          rw [update_job_status_lookup_ne s.tm id k
            (TransferStatus.failed msg) now hkne] at hjj
          exact hinv.disp_status k (List.mem_of_mem_erase hk) jj hjj
      · exact hinv

/-- The initial state satisfies the invariant. -/
theorem schedInv_init : SchedInv initSched := by
  refine ⟨?_, ?_, ?_, ?_, ?_, ?_, ?_, ?_, ?_⟩ <;> simp [initSched, alookup]

theorem schedInv_runOpsFrom (ops : List SchedOp) :
    ∀ s, SchedInv s → SchedInv (runOpsFrom s ops) := by
  induction ops with
  | nil => intro s hs; exact hs
  | cons op ops ih =>
      intro s hs
      exact ih _ (schedInv_applyOp s op hs)

/-- Every state reachable from the initial state satisfies the
invariant. -/
theorem schedInv_runOps (ops : List SchedOp) : SchedInv (runOps ops) :=
  schedInv_runOpsFrom ops initSched schedInv_init

/-! ### Effect of single steps on a fixed job record -/

/-- Adding a job never touches the record of an id that was already
issued. -/
theorem applyOp_add_lookup (s : SchedState) (j : TransferJob) (id : Key)
    (hused : id ∈ s.used) :
    alookup (applyOp s (SchedOp.add j)).tm.jobs id = alookup s.tm.jobs id := by
  simp only [applyOp]
  split_ifs with hg
  · dsimp only
    exact add_job_lookup_ne s.tm j id (fun he => hg.2 (he ▸ hused))
  · rfl

/-- Retrying never touches the record of an id that was already
issued (the new job gets a fresh id). -/
theorem applyOp_retry_lookup (s : SchedState) (rid newId : Key) (now : Int) (id : Key)
    (hused : id ∈ s.used) :
    alookup (applyOp s (SchedOp.retry rid newId now)).tm.jobs id = alookup s.tm.jobs id := by
  simp only [applyOp]
  by_cases hg : newId ∉ s.used
  case neg =>
    rw [if_neg hg]
  rw [if_pos hg]
  cases hl : alookup s.tm.jobs rid with
  | none =>
      have h2 : retry_job s.tm rid newId now = (none, s.tm) := by
        unfold retry_job
        rw [hl]
      rw [h2]
  | some j0 =>
      cases hst : j0.status with
      | failed r =>
          have h2 : retry_job s.tm rid newId now =
              (some newId, add_job s.tm (⟨newId, j0.bucket, j0.bucket_region, j0.key,
                j0.local_path, j0.transfer_type, TransferStatus.pending, j0.total_bytes, 0,
                now, j0.parent_group_id, j0.group_name, j0.is_group_root, none⟩ :
                TransferJob)) := by
            unfold retry_job
            rw [hl]
            dsimp only
            rw [hst]
            rfl
          rw [h2]
          exact add_job_lookup_ne s.tm _ id
            (fun he => hg ((show newId = id from he) ▸ hused))
      | cancelled =>
          have h2 : retry_job s.tm rid newId now =
              (some newId, add_job s.tm (⟨newId, j0.bucket, j0.bucket_region, j0.key,
                j0.local_path, j0.transfer_type, TransferStatus.pending, j0.total_bytes, 0,
                now, j0.parent_group_id, j0.group_name, j0.is_group_root, none⟩ :
                TransferJob)) := by
            unfold retry_job
            rw [hl]
            dsimp only
            rw [hst]
            rfl
          rw [h2]
          exact add_job_lookup_ne s.tm _ id
            (fun he => hg ((show newId = id from he) ▸ hused))
      | pending =>
          have h2 : retry_job s.tm rid newId now = (none, s.tm) := by
            unfold retry_job
            rw [hl]
            dsimp only
            rw [hst]
          rw [h2]
      | inProgress =>
          have h2 : retry_job s.tm rid newId now = (none, s.tm) := by
            unfold retry_job
            rw [hl]
            dsimp only
            rw [hst]
          rw [h2]
      | completed =>
          have h2 : retry_job s.tm rid newId now = (none, s.tm) := by
            unfold retry_job
            rw [hl]
            dsimp only
            rw [hst]
          rw [h2]
      | paused =>
          have h2 : retry_job s.tm rid newId now = (none, s.tm) := by
            unfold retry_job
            rw [hl]
            dsimp only
            rw [hst]
          rw [h2]

/-- The status transitions a single scheduler step can actually
perform: stay put; `Pending` to `InProgress` (dispatch) or `Cancelled`
(cancel); `InProgress` to `Completed`, `Cancelled` or `Failed`; and —
beyond the spec's state machine — `Cancelled` back to `InProgress`
(dispatch of a still-queued cancelled job) or to `Failed` (the
unconditional `Err`-branch write). -/
def stepAllowed (a b : TransferStatus) : Prop :=
  a = b ∨
  (a = TransferStatus.pending ∧
    (b = TransferStatus.inProgress ∨ b = TransferStatus.cancelled)) ∨
  (a = TransferStatus.inProgress ∧
    (b = TransferStatus.completed ∨ b = TransferStatus.cancelled ∨
     ∃ r, b = TransferStatus.failed r)) ∨
  (a = TransferStatus.cancelled ∧
    (b = TransferStatus.inProgress ∨ ∃ r, b = TransferStatus.failed r))

/-- Every single step moves every job's status along `stepAllowed`. -/
theorem applyOp_stepAllowed (s : SchedState) (op : SchedOp) (hinv : SchedInv s)
    (id : Key) (j j' : TransferJob)
    (hb : alookup s.tm.jobs id = some j)
    (ha : alookup (applyOp s op).tm.jobs id = some j') :
    stepAllowed j.status j'.status := by
  cases op with
  | add jj =>
      rw [applyOp_add_lookup s jj id (hinv.keys_used id (alookup_mem_keys _ _ _ hb)), hb] at ha
      injection ha with hh
      subst hh
      exact Or.inl rfl
  | cancel cid =>
      simp only [applyOp] at ha
      by_cases hkid : id = cid
      · subst hkid
        cases hst : j.status with
        | pending =>
          rw [cancel_job_lookup_active s.tm id j hb (Or.inl hst)] at ha
          injection ha with hh
          subst hh
          exact Or.inr (Or.inl ⟨rfl, Or.inr rfl⟩)
        | inProgress =>
          rw [cancel_job_lookup_active s.tm id j hb (Or.inr hst)] at ha
          injection ha with hh
          subst hh
          exact Or.inr (Or.inr (Or.inl ⟨rfl, Or.inr (Or.inl rfl)⟩))
        | completed =>
          rw [cancel_job_lookup_inactive s.tm id j hb (by simp [hst]) (by simp [hst])] at ha
          injection ha with hh
          subst hh
          exact Or.inl hst.symm
        | failed r =>
          rw [cancel_job_lookup_inactive s.tm id j hb (by simp [hst]) (by simp [hst])] at ha
          injection ha with hh
          subst hh
          exact Or.inl hst.symm
        | paused =>
          rw [cancel_job_lookup_inactive s.tm id j hb (by simp [hst]) (by simp [hst])] at ha
          injection ha with hh
          subst hh
          exact Or.inl hst.symm
        | cancelled =>
          rw [cancel_job_lookup_inactive s.tm id j hb (by simp [hst]) (by simp [hst])] at ha
          injection ha with hh
          subst hh
          exact Or.inl hst.symm
      · rw [cancel_job_lookup_ne s.tm cid id hkid, hb] at ha
        injection ha with hh
        subst hh
        exact Or.inl rfl
  | retry rid newId now =>
      rw [applyOp_retry_lookup s rid newId now id
        (hinv.keys_used id (alookup_mem_keys _ _ _ hb)), hb] at ha
      injection ha with hh
      subst hh
      exact Or.inl rfl
  | removeJob rid =>
      simp only [applyOp] at ha
      dsimp only [remove_job] at ha
      rw [alookup_aremove] at ha
      by_cases hkid : id = rid
      · rw [if_pos hkid] at ha
        simp at ha
      · rw [if_neg hkid, hb] at ha
        injection ha with hh
        subst hh
        exact Or.inl rfl
  | clearDone =>
      simp only [applyOp] at ha
      dsimp only [clear_completed] at ha
      have h3 := alookup_filter_some _ _ id j' hinv.keys_nodup ha
      rw [hb] at h3
      injection h3 with hh
      subst hh
      exact Or.inl rfl
  | dispatch now =>
      simp only [applyOp] at ha
      cases hq : s.tm.queue with
      | nil =>
          rw [hq] at ha
          dsimp only at ha
          rw [hb] at ha
          injection ha with hh
          subst hh
          exact Or.inl rfl
      | cons id0 rest =>
          rw [hq] at ha
          dsimp only at ha
          by_cases hkid : id = id0
          · subst hkid
            rw [update_job_status_lookup_some ⟨s.tm.jobs, rest⟩ id
              TransferStatus.inProgress now j hb] at ha
            injection ha with hh
            subst hh
            rcases hinv.queue_status id (by rw [hq]; simp) j hb with hqs | hqs
            · exact Or.inr (Or.inl ⟨hqs, Or.inl rfl⟩)
            · exact Or.inr (Or.inr (Or.inr ⟨hqs, Or.inl rfl⟩))
          · rw [update_job_status_lookup_ne ⟨s.tm.jobs, rest⟩ id0 id
              TransferStatus.inProgress now hkid, hb] at ha
            injection ha with hh
            subst hh
            exact Or.inl rfl
  | execOk eid now =>
      simp only [applyOp] at ha
      split_ifs at ha with hd
      · cases hl : alookup s.tm.jobs eid with
        | none =>
            rw [hl] at ha
            dsimp only at ha
            rw [hb] at ha
            injection ha with hh
            subst hh
            exact Or.inl rfl
        | some j0 =>
            rw [hl] at ha
            dsimp only at ha
            by_cases hc : j0.status = TransferStatus.cancelled
            · rw [if_pos hc] at ha
              dsimp only at ha
              rw [hb] at ha
              injection ha with hh
              subst hh
              exact Or.inl rfl
            · rw [if_neg hc] at ha
              dsimp only at ha
              by_cases hkid : id = eid
              · subst hkid
                rw [hl] at hb
                injection hb with hh0
                subst hh0
                rw [update_job_status_lookup_some s.tm id
                  TransferStatus.completed now j0 hl] at ha
                injection ha with hh
                subst hh
                rcases hinv.disp_status id hd j0 hl with hs0 | hs0
                · exact Or.inr (Or.inr (Or.inl ⟨hs0, Or.inl rfl⟩))
                · exact absurd hs0 hc
              · rw [update_job_status_lookup_ne s.tm eid id
                  TransferStatus.completed now hkid, hb] at ha
                injection ha with hh
                subst hh
                exact Or.inl rfl
      · rw [hb] at ha
        injection ha with hh
        subst hh
        exact Or.inl rfl
  | execErr eid msg now =>
      simp only [applyOp] at ha
      split_ifs at ha with hd
      · dsimp only at ha
        by_cases hkid : id = eid
        · subst hkid
          cases hl : alookup s.tm.jobs id with
          | none =>
              rw [hl] at hb
              simp at hb
          | some j0 =>
              rw [hl] at hb
              injection hb with hh0
              subst hh0
              rw [update_job_status_lookup_some s.tm id
                (TransferStatus.failed msg) now j0 hl] at ha
              injection ha with hh
              subst hh
              rcases hinv.disp_status id hd j0 hl with hs0 | hs0
              · exact Or.inr (Or.inr (Or.inl ⟨hs0, Or.inr (Or.inr ⟨msg, rfl⟩)⟩))
              · exact Or.inr (Or.inr (Or.inr ⟨hs0, Or.inr ⟨msg, rfl⟩⟩))
        · rw [update_job_status_lookup_ne s.tm eid id
            (TransferStatus.failed msg) now hkid, hb] at ha
          injection ha with hh
          subst hh
          exact Or.inl rfl
      · rw [hb] at ha
        injection ha with hh
        subst hh
        exact Or.inl rfl

theorem runOps_append (ops : List SchedOp) (op : SchedOp) :
    runOps (ops ++ [op]) = applyOp (runOps ops) op := by
  unfold runOps runOpsFrom
  rw [List.foldl_append]
  rfl

/-! ### Claim C3 -/

/-- C3 (amended): under every interleaving of store and scheduler
operations, a job's status moves only along the single-step relation
`stepAllowed`; in particular a job never re-enters `Pending` after
leaving it, and `Completed` and `Failed` are stable.  The claim's full
state machine `Pending → InProgress → {Completed | Failed | Cancelled}`
does NOT hold: `stepAllowed` necessarily also contains the transitions
`Cancelled → InProgress` (dispatch of a job cancelled while still
queued — `cancel_job` does not dequeue, and `process_queue` sets
`InProgress` unconditionally, line 188) and `Cancelled → Failed` (the
`Err` branch writes `Failed` without the cancellation double-check,
line 202), exhibited by `c3_counterexample`. -/
theorem c3_status_machine (ops : List SchedOp) (op : SchedOp) (id : Key) (j j' : TransferJob)
    (hb : alookup (runOps ops).tm.jobs id = some j)
    (ha : alookup (runOps (ops ++ [op])).tm.jobs id = some j') :
    stepAllowed j.status j'.status ∧
    (j.status ≠ TransferStatus.pending → j'.status ≠ TransferStatus.pending) ∧
    (j.status = TransferStatus.completed → j'.status = TransferStatus.completed) ∧
    (∀ r, j.status = TransferStatus.failed r → j'.status = TransferStatus.failed r) := by
  rw [runOps_append] at ha
  have hstep := applyOp_stepAllowed (runOps ops) op (schedInv_runOps ops) id j j' hb ha
  refine ⟨hstep, ?_, ?_, ?_⟩
  · intro hnp
    rcases hstep with heq | ⟨hp, _⟩ | ⟨_, hb2⟩ | ⟨_, hb2⟩
    · rw [← heq]
      exact hnp
    · exact absurd hp hnp
    · rcases hb2 with h1 | h1 | ⟨r, h1⟩ <;> simp [h1]
    · rcases hb2 with h1 | ⟨r, h1⟩ <;> simp [h1]
  · intro hc
    rcases hstep with heq | ⟨hp, _⟩ | ⟨hi, _⟩ | ⟨hcc, _⟩
    · rw [← heq, hc]
    · rw [hc] at hp
      simp at hp
    · rw [hc] at hi
      simp at hi
    · rw [hc] at hcc
      simp at hcc
  · intro r hf
    rcases hstep with heq | ⟨hp, _⟩ | ⟨hi, _⟩ | ⟨hcc, _⟩
    · rw [← heq, hf]
    · rw [hf] at hp
      simp at hp
    · rw [hf] at hi
      simp at hi
    · rw [hf] at hcc
      simp at hcc

/-- C3's counterexample: cancelling a still-queued pending job leaves
its id in the queue, and the next dispatch moves the job from the
terminal status `Cancelled` back to `InProgress` — the spec's state
machine forbids any transition out of `Cancelled`. -/
theorem c3_counterexample :
    (alookup (runOps [SchedOp.add ⟨['i'], ['b'], none, ['k'], ['p'], TransferType.download,
        TransferStatus.pending, 0, 0, 0, none, none, false, none⟩,
      SchedOp.cancel ['i']]).tm.jobs ['i']).map TransferJob.status =
        some TransferStatus.cancelled ∧
    (alookup (runOps [SchedOp.add ⟨['i'], ['b'], none, ['k'], ['p'], TransferType.download,
        TransferStatus.pending, 0, 0, 0, none, none, false, none⟩,
      SchedOp.cancel ['i'], SchedOp.dispatch 1]).tm.jobs ['i']).map TransferJob.status =
        some TransferStatus.inProgress := by
  exact ⟨rfl, rfl⟩

/-- C3's witness: a concrete allowed step — cancelling a freshly added
pending job. -/
theorem c3_status_machine_witness :
    stepAllowed TransferStatus.pending TransferStatus.cancelled ∧
    (TransferStatus.pending ≠ TransferStatus.pending →
      TransferStatus.cancelled ≠ TransferStatus.pending) ∧
    (TransferStatus.pending = TransferStatus.completed →
      TransferStatus.cancelled = TransferStatus.completed) ∧
    (∀ r, TransferStatus.pending = TransferStatus.failed r →
      TransferStatus.cancelled = TransferStatus.failed r) :=
  c3_status_machine [SchedOp.add ⟨['i'], ['b'], none, ['k'], ['p'], TransferType.download,
      TransferStatus.pending, 0, 0, 0, none, none, false, none⟩]
    (SchedOp.cancel ['i']) ['i']
    ⟨['i'], ['b'], none, ['k'], ['p'], TransferType.download, TransferStatus.pending,
      0, 0, 0, none, none, false, none⟩
    ⟨['i'], ['b'], none, ['k'], ['p'], TransferType.download, TransferStatus.cancelled,
      0, 0, 0, none, none, false, none⟩
    (by decide) (by decide)

/-! ### Claim C5 -/

theorem add_job_queue (s : TMState) (j : TransferJob) :
    (add_job s j).queue = s.queue ++ [j.id] := rfl

/-- State of a cancelled job that is no longer queued: from here on its
status can only be `Cancelled` or — through the unconditional
`Err`-branch write — `Failed`; in particular never `Completed`. -/
structure CancelSafe (id : Key) (s : SchedState) : Prop where
  used_mem : id ∈ s.used
  not_queued : id ∉ s.tm.queue
  safe_status : ∀ j, alookup s.tm.jobs id = some j →
    j.status = TransferStatus.cancelled ∨ ∃ r, j.status = TransferStatus.failed r

/-- Every scheduler step preserves `CancelSafe` (on invariant
states). -/
theorem cancelSafe_applyOp (id : Key) (s : SchedState) (op : SchedOp)
    (hinv : SchedInv s) (hq : CancelSafe id s) : CancelSafe id (applyOp s op) := by
  cases op with
  | add jj =>
      simp only [applyOp]
      split_ifs with hg
      · have hjid : jj.id ≠ id := fun he => hg.2 (he ▸ hq.used_mem)
        refine ⟨?_, ?_, ?_⟩ <;> dsimp only
        · exact List.mem_append_left _ hq.used_mem
        · rw [add_job_queue]
          intro hmem
          rcases List.mem_append.mp hmem with h2 | h2
          · exact hq.not_queued h2
          · simp only [List.mem_singleton] at h2
            exact hjid h2.symm
        · intro j hj
          rw [add_job_lookup_ne s.tm jj id hjid] at hj
          exact hq.safe_status j hj
      · exact hq
  | cancel cid =>
      refine ⟨hq.used_mem, ?_, ?_⟩ <;> dsimp only [applyOp]
      · rw [cancel_job_queue]
        exact hq.not_queued
      · intro j hj
        by_cases hkid : id = cid
        · subst hkid
          cases hl : alookup s.tm.jobs id with
          | none =>
              rw [cancel_job_lookup_none s.tm id hl] at hj
              simp at hj
          | some j0 =>
              have hs0 := hq.safe_status j0 hl
              have hs1 : j0.status ≠ TransferStatus.pending := by
                rcases hs0 with h | ⟨r, h⟩ <;> simp [h]
              have hs2 : j0.status ≠ TransferStatus.inProgress := by
                rcases hs0 with h | ⟨r, h⟩ <;> simp [h]
              rw [cancel_job_lookup_inactive s.tm id j0 hl hs1 hs2] at hj
              injection hj with hh
              subst hh
              exact hs0
        · rw [cancel_job_lookup_ne s.tm cid id hkid] at hj
          exact hq.safe_status j hj
  | retry rid newId now =>
      simp only [applyOp]
      by_cases hg : newId ∉ s.used
      case neg =>
        rw [if_neg hg]
        exact hq
      rw [if_pos hg]
      have hnid : newId ≠ id := fun he => hg (he ▸ hq.used_mem)
      cases hl : alookup s.tm.jobs rid with
      | none =>
          have h2 : retry_job s.tm rid newId now = (none, s.tm) := by
            unfold retry_job
            rw [hl]
          rw [h2]
          exact hq
      | some j0 =>
          cases hst : j0.status with
          | failed r =>
              have h2 : retry_job s.tm rid newId now =
                  (some newId, add_job s.tm (⟨newId, j0.bucket, j0.bucket_region, j0.key,
                    j0.local_path, j0.transfer_type, TransferStatus.pending, j0.total_bytes,
                    0, now, j0.parent_group_id, j0.group_name, j0.is_group_root, none⟩ :
                    TransferJob)) := by
                unfold retry_job
                rw [hl]
                dsimp only
                rw [hst]
                rfl
              rw [h2]
              refine ⟨?_, ?_, ?_⟩ <;> dsimp only
              · exact List.mem_append_left _ hq.used_mem
              · rw [add_job_queue]
                intro hmem
                rcases List.mem_append.mp hmem with hm2 | hm2
                · exact hq.not_queued hm2
                · simp only [List.mem_singleton] at hm2
                  exact hnid hm2.symm
              · intro j hj
                rw [add_job_lookup_ne s.tm _ id hnid] at hj
                exact hq.safe_status j hj
          | cancelled =>
              have h2 : retry_job s.tm rid newId now =
                  (some newId, add_job s.tm (⟨newId, j0.bucket, j0.bucket_region, j0.key,
                    j0.local_path, j0.transfer_type, TransferStatus.pending, j0.total_bytes,
                    0, now, j0.parent_group_id, j0.group_name, j0.is_group_root, none⟩ :
                    TransferJob)) := by
                unfold retry_job
                rw [hl]
                dsimp only
                rw [hst]
                rfl
              rw [h2]
              refine ⟨?_, ?_, ?_⟩ <;> dsimp only
              · exact List.mem_append_left _ hq.used_mem
              · rw [add_job_queue]
                intro hmem
                rcases List.mem_append.mp hmem with hm2 | hm2
                · exact hq.not_queued hm2
                · simp only [List.mem_singleton] at hm2
                  exact hnid hm2.symm
              · intro j hj
                rw [add_job_lookup_ne s.tm _ id hnid] at hj
                exact hq.safe_status j hj
          | pending =>
              have h2 : retry_job s.tm rid newId now = (none, s.tm) := by
                unfold retry_job
                rw [hl]
                dsimp only
                rw [hst]
              rw [h2]
              exact hq
          | inProgress =>
              have h2 : retry_job s.tm rid newId now = (none, s.tm) := by
                unfold retry_job
                rw [hl]
                dsimp only
                rw [hst]
              rw [h2]
              exact hq
          | completed =>
              have h2 : retry_job s.tm rid newId now = (none, s.tm) := by
                unfold retry_job
                rw [hl]
                dsimp only
                rw [hst]
              rw [h2]
              exact hq
          | paused =>
              have h2 : retry_job s.tm rid newId now = (none, s.tm) := by
                unfold retry_job
                rw [hl]
                dsimp only
                rw [hst]
              rw [h2]
              exact hq
  | removeJob rid =>
      refine ⟨hq.used_mem, ?_, ?_⟩ <;> dsimp only [applyOp, remove_job]
      · exact hq.not_queued
      · intro j hj
        rw [alookup_aremove] at hj
        by_cases hkid : id = rid
        · rw [if_pos hkid] at hj
          simp at hj
        · rw [if_neg hkid] at hj
          exact hq.safe_status j hj
  | clearDone =>
      refine ⟨hq.used_mem, ?_, ?_⟩ <;> dsimp only [applyOp, clear_completed]
      · exact hq.not_queued
      · intro j hj
        exact hq.safe_status j (alookup_filter_some _ _ id j hinv.keys_nodup hj)
  | dispatch now =>
      simp only [applyOp]
      cases hqq : s.tm.queue with
      | nil => exact hq
      | cons id0 rest =>
          have hid0 : id0 ≠ id := by
            intro he
            apply hq.not_queued
            rw [hqq, ← he]
            exact List.mem_cons_self id0 rest
          refine ⟨hq.used_mem, ?_, ?_⟩ <;> dsimp only
          · rw [update_job_status_queue]
            intro hmem
            apply hq.not_queued
            rw [hqq]
            exact List.mem_cons_of_mem id0 hmem
          · intro j hj
            rw [update_job_status_lookup_ne ⟨s.tm.jobs, rest⟩ id0 id
              TransferStatus.inProgress now (fun he => hid0 he.symm)] at hj
            exact hq.safe_status j hj
  | execOk eid now =>
      simp only [applyOp]
      split_ifs with hd
      · cases hl : alookup s.tm.jobs eid with
        | none => exact ⟨hq.used_mem, hq.not_queued, hq.safe_status⟩
        | some j0 =>
            dsimp only
            by_cases hc : j0.status = TransferStatus.cancelled
            · rw [if_pos hc]
              exact ⟨hq.used_mem, hq.not_queued, hq.safe_status⟩
            · rw [if_neg hc]
              by_cases hkid : id = eid
              · subst hkid
                exfalso
                rcases hinv.disp_status id hd j0 hl with h1 | h1
                · rcases hq.safe_status j0 hl with h2 | ⟨r, h2⟩
                  · exact hc h2
                  · rw [h1] at h2
                    simp at h2
                · exact hc h1
              · refine ⟨hq.used_mem, ?_, ?_⟩ <;> dsimp only
                · rw [update_job_status_queue]
                  exact hq.not_queued
                · intro j hj
                  rw [update_job_status_lookup_ne s.tm eid id
                    TransferStatus.completed now hkid] at hj
                  exact hq.safe_status j hj
      · exact hq
  | execErr eid msg now =>
      simp only [applyOp]
      split_ifs with hd
      · refine ⟨hq.used_mem, ?_, ?_⟩ <;> dsimp only
        · rw [update_job_status_queue]
          exact hq.not_queued
        · intro j hj
          by_cases hkid : id = eid
          · subst hkid
            cases hl : alookup s.tm.jobs id with
            | none =>
                rw [update_job_status_lookup_none s.tm id
                  (TransferStatus.failed msg) now hl] at hj
                simp at hj
            | some j0 =>
                rw [update_job_status_lookup_some s.tm id
                  (TransferStatus.failed msg) now j0 hl] at hj
                injection hj with hh
                subst hh
                exact Or.inr ⟨msg, rfl⟩
          · rw [update_job_status_lookup_ne s.tm eid id
              (TransferStatus.failed msg) now hkid] at hj
            exact hq.safe_status j hj
      · exact hq

theorem cancelSafe_runOpsFrom (id : Key) (ops : List SchedOp) :
    ∀ s, SchedInv s → CancelSafe id s → CancelSafe id (runOpsFrom s ops) := by
  induction ops with
  | nil =>
      intro s _ hq
      exact hq
  | cons op ops ih =>
      intro s hs hq
      exact ih _ (schedInv_applyOp s op hs) (cancelSafe_applyOp id s op hs hq)

/-- C5 (amended).  Function level, exactly as claimed: `cancel_job`
returns `true` and rewrites the status to `Cancelled` precisely when
the job exists with status `Pending` or `InProgress`; otherwise it
returns `false` and leaves the store untouched.  Temporal part,
corrected: after a successful cancel of a job that is NOT still queued
(the in-flight case), every later state of any continuation has the
job `Cancelled` or — via the unconditional `Err`-branch write —
`Failed`, and in particular never `Completed`.  The claim's unrestricted
"eventual terminal status remains Cancelled" is false: for a job
cancelled while still queued, dispatch re-marks it `InProgress` and the
`Ok` branch then records `Completed` (`c5_counterexample`). -/
theorem c5_cancel_job :
    (∀ (s : TMState) (id : Key),
        ((cancel_job s id).1 = true ↔
          ∃ j, alookup s.jobs id = some j ∧
            (j.status = TransferStatus.pending ∨ j.status = TransferStatus.inProgress)) ∧
        (∀ j, alookup s.jobs id = some j →
          j.status = TransferStatus.pending ∨ j.status = TransferStatus.inProgress →
          cancel_job s id =
            (true, ⟨aupsert s.jobs id (fun _ => { j with status := TransferStatus.cancelled }),
              s.queue⟩)) ∧
        ((cancel_job s id).1 = false → (cancel_job s id).2 = s)) ∧
    (∀ (ops more : List SchedOp) (id : Key) (j : TransferJob),
        (cancel_job (runOps ops).tm id).1 = true →
        id ∉ (runOps ops).tm.queue →
        alookup (runOpsFrom (applyOp (runOps ops) (SchedOp.cancel id)) more).tm.jobs id
          = some j →
        j.status = TransferStatus.cancelled ∨ ∃ r, j.status = TransferStatus.failed r) := by
  constructor
  · intro s id
    refine ⟨?_, ?_, ?_⟩
    · unfold cancel_job
      cases hl : alookup s.jobs id with
      | none =>
          dsimp only
          simp
      | some j =>
          dsimp only
          cases hst : j.status with
          | pending => simpa using Or.inl hst
          | inProgress => simpa using Or.inr hst
          | completed => simp [hst]
          | failed r => simp [hst]
          | paused => simp [hst]
          | cancelled => simp [hst]
    · intro j hj hact
      unfold cancel_job
      rw [hj]
      dsimp only
      rcases hact with h | h <;> simp [h]
    · intro hfalse
      unfold cancel_job at hfalse ⊢
      cases hl : alookup s.jobs id with
      | none => rfl
      | some j =>
          rw [hl] at hfalse
          dsimp only at hfalse ⊢
          cases hst : j.status with
          | pending =>
              rw [hst] at hfalse
              simp at hfalse
          | inProgress =>
              rw [hst] at hfalse
              simp at hfalse
          | completed => rfl
          | failed r => rfl
          | paused => rfl
          | cancelled => rfl
  · intro ops more id j hcan hnq hlook
    have hinv := schedInv_runOps ops
    cases hcl : alookup (runOps ops).tm.jobs id with
    | none =>
        unfold cancel_job at hcan
        rw [hcl] at hcan
        simp at hcan
    | some j0 =>
        have hact : j0.status = TransferStatus.pending ∨
            j0.status = TransferStatus.inProgress := by
          unfold cancel_job at hcan
          rw [hcl] at hcan
          dsimp only at hcan
          cases hst : j0.status with
          | pending => exact Or.inl rfl
          | inProgress => exact Or.inr rfl
          | completed =>
              rw [hst] at hcan
              simp at hcan
          | failed r =>
              rw [hst] at hcan
              simp at hcan
          | paused =>
              rw [hst] at hcan
              simp at hcan
          | cancelled =>
              rw [hst] at hcan
              simp at hcan
        have hsafe : CancelSafe id (applyOp (runOps ops) (SchedOp.cancel id)) := by
          refine ⟨?_, ?_, ?_⟩ <;> dsimp only [applyOp]
          · exact hinv.keys_used id (alookup_mem_keys _ _ _ hcl)
          · rw [cancel_job_queue]
            exact hnq
          · intro jx hjx
            rw [cancel_job_lookup_active (runOps ops).tm id j0 hcl hact] at hjx
            injection hjx with hh
            subst hh
            exact Or.inl rfl
        have hinv2 : SchedInv (applyOp (runOps ops) (SchedOp.cancel id)) :=
          schedInv_applyOp _ _ hinv
        exact (cancelSafe_runOpsFrom id more _ hinv2 hsafe).safe_status j hlook

/-- C5's counterexample: cancelling a job that is still `Pending` (and
hence still queued) returns `true` and marks it `Cancelled`, yet the
subsequent dispatch and worker `Ok` branch overwrite it to `Completed`
— the cancelled job's terminal status does not remain `Cancelled`. -/
theorem c5_counterexample :
    (cancel_job (runOps [SchedOp.add ⟨['i'], ['b'], none, ['k'], ['p'],
        TransferType.download, TransferStatus.pending, 0, 0, 0, none, none, false,
        none⟩]).tm ['i']).1 = true ∧
    (alookup (runOps [SchedOp.add ⟨['i'], ['b'], none, ['k'], ['p'],
        TransferType.download, TransferStatus.pending, 0, 0, 0, none, none, false, none⟩,
      SchedOp.cancel ['i'], SchedOp.dispatch 1,
      SchedOp.execOk ['i'] 2]).tm.jobs ['i']).map TransferJob.status =
        some TransferStatus.completed := by
  exact ⟨rfl, rfl⟩

/-- C5's witness: an in-flight (dispatched, `InProgress`) job is
cancelled; after the worker's `Ok` branch it is still `Cancelled`. -/
theorem c5_cancel_job_witness :
    (cancel_job (runOps [SchedOp.add ⟨['i'], ['b'], none, ['k'], ['p'],
        TransferType.download, TransferStatus.pending, 0, 0, 0, none, none, false, none⟩,
      SchedOp.dispatch 0]).tm ['i']).1 = true ∧
    ((⟨['i'], ['b'], none, ['k'], ['p'], TransferType.download, TransferStatus.cancelled,
        0, 0, 0, none, none, false, none⟩ : TransferJob).status = TransferStatus.cancelled ∨
      ∃ r, (⟨['i'], ['b'], none, ['k'], ['p'], TransferType.download,
        TransferStatus.cancelled, 0, 0, 0, none, none, false, none⟩ :
        TransferJob).status = TransferStatus.failed r) :=
  ⟨by decide,
   c5_cancel_job.2 [SchedOp.add ⟨['i'], ['b'], none, ['k'], ['p'], TransferType.download,
       TransferStatus.pending, 0, 0, 0, none, none, false, none⟩, SchedOp.dispatch 0]
     [SchedOp.execOk ['i'] 1] ['i']
     ⟨['i'], ['b'], none, ['k'], ['p'], TransferType.download, TransferStatus.cancelled,
       0, 0, 0, none, none, false, none⟩
     (by decide) (by decide) (by decide)⟩

end Brows3
